import Mathlib

/-!
Verification of the `arraydeque` crate: a fixed-capacity double-ended queue
(circular buffer) backed by an array of `N` slots, with modular `head`/`tail`
cursors and `capacity = N - 1`.

The repository source tree only ships the crate root (`lib.rs`, holding the
crate documentation with its doctest examples and the `new_array` helper);
the implementation modules (`mod arraydeque`, `mod array`, `mod utils`) are
not present.  The operations below are therefore modelled from the
specification's component design (section 4.1 of the spec), faithfully to
its words.  Slots are modelled as `Option` values: `none` stands for a
non-live (uninitialized or already-vacated) slot, `some a` for a live slot
holding the constructed element `a`; this realizes the spec's design note
that liveness is tracked purely through the head/tail logical range.
-/

namespace ArraydequeSpec

/-- Modelled from the spec: the single structured error kind, `CapacityError`,
"carrying back the element that could not be accepted". -/
structure CapacityError (α : Type) : Type where
  element : α
  deriving Repr, DecidableEq

/-- Modelled from the spec (data model, section 3): the circular buffer holds
fixed-size storage of length `N` (here `n`, with the slot contents in the list
`xs` of length `n`), a `head` cursor (index of the first logical element) and a
`tail` cursor (one past the last logical element).  A slot holding `none` is
non-live; `some a` is a live slot holding element `a`. -/
structure ArrayDeque (α : Type) : Type where
  n    : Nat
  head : Nat
  tail : Nat
  xs   : List (Option α)
  deriving Repr, DecidableEq

namespace ArrayDeque

variable {α : Type}

/-- Modelled from the spec: `capacity() = N - 1` (constant). -/
def capacity (d : ArrayDeque α) : Nat := d.n - 1

/-- Modelled from the spec: `len() = (tail - head) mod N`, written with the
non-truncating Nat form `(tail + N - head) % N` (equal to the modular
difference whenever `head < N`). -/
def len (d : ArrayDeque α) : Nat := (d.tail + d.n - d.head) % d.n

/-- Modelled from the spec: `is_empty() = (len() == 0)`. -/
def is_empty (d : ArrayDeque α) : Bool := d.len == 0

/-- Modelled from the spec: `is_full() = (len() == capacity())`. -/
def is_full (d : ArrayDeque α) : Bool := d.len == d.capacity

/-- Modelled from the spec: `new()` produces the empty buffer with
`head = tail = 0` and all `N` slots non-live (the backing array is created
uninitialized by `new_array` in `lib.rs`; `none` models an uninitialized
slot). -/
def new (α : Type) (n : Nat) : ArrayDeque α :=
  { n := n, head := 0, tail := 0, xs := List.replicate n none }

/-- Slot content at physical index `j` (`none` when non-live or out of
range). -/
def slot (d : ArrayDeque α) (j : Nat) : Option α := d.xs.getD j none

/-- Modelled from the spec: `push_back(element)` "fails with
`CapacityError(element)` if full ... Otherwise writes `element` into slot
`tail`, then advances `tail = (tail + 1) mod N`". -/
def push_back (d : ArrayDeque α) (x : α) : Except (CapacityError α) (ArrayDeque α) :=
  if d.is_full then .error ⟨x⟩
  else .ok { d with xs := d.xs.set d.tail (some x), tail := (d.tail + 1) % d.n }

/-- Modelled from the spec: `push_front(element)` is symmetric; "fails if
full; otherwise decrements `head = (head - 1) mod N` first, then writes
`element` into the new `head` slot". -/
def push_front (d : ArrayDeque α) (x : α) : Except (CapacityError α) (ArrayDeque α) :=
  if d.is_full then .error ⟨x⟩
  else
    let h := (d.head + d.n - 1) % d.n
    .ok { d with xs := d.xs.set h (some x), head := h }

/-- Modelled from the spec: `pop_front()`: "if empty, nothing; otherwise
reads/removes element at `head`, marks it non-live, advances
`head = (head + 1) mod N`, returns it". The pair returns the read element
(always `some _` on a buffer satisfying the liveness invariant) together
with the updated buffer. -/
def pop_front (d : ArrayDeque α) : Option α × ArrayDeque α :=
  if d.len = 0 then (none, d)
  else (d.slot d.head,
        { d with xs := d.xs.set d.head none, head := (d.head + 1) % d.n })

/-- Modelled from the spec: `pop_back()`: "if empty, produces nothing.
Otherwise decrements `tail = (tail - 1) mod N`, reads and removes the
element at the new `tail`, marks that slot non-live, returns it". -/
def pop_back (d : ArrayDeque α) : Option α × ArrayDeque α :=
  if d.len = 0 then (none, d)
  else
    let t := (d.tail + d.n - 1) % d.n
    (d.slot t, { d with xs := d.xs.set t none, tail := t })

/-- Modelled from the spec: `get(i)`: "fails (returns nothing) if
`i ≥ len()`; otherwise returns the element in slot `(head + i) mod N`". -/
def get (d : ArrayDeque α) (i : Nat) : Option α :=
  if d.len ≤ i then none else d.slot ((d.head + i) % d.n)

/-- The logical front-to-back element sequence of the buffer: the contents
of slots `(head + i) mod N` for logical `i < len` (spec, section 3:
"logical position `i` maps to physical slot `(head + i) mod N`"). -/
def toList (d : ArrayDeque α) : List α :=
  (List.range d.len).filterMap (fun i => d.slot ((d.head + i) % d.n))

/-- Modelled from the spec (Equality/ordering): "two buffers compare equal
iff same length and element-wise equal in logical order, regardless of
physical head/tail offsets". -/
def deq_eq (d e : ArrayDeque α) : Prop := d.toList = e.toList

/-- Total push at the back: on failure (full buffer) the buffer is left
exactly as it was (spec: strong failure safety).  Used by the bulk
operations that push element-by-element. -/
def push_back_t (d : ArrayDeque α) (x : α) : ArrayDeque α :=
  match d.push_back x with
  | .ok d₁ => d₁
  | .error _ => d

/-- Total push at the front, analogous to `push_back_t`. -/
def push_front_t (d : ArrayDeque α) (x : α) : ArrayDeque α :=
  match d.push_front x with
  | .ok d₁ => d₁
  | .error _ => d

/-- Pop `k` elements from the front, collecting them in pop order
(front-to-back logical order). -/
def pop_front_n (d : ArrayDeque α) (k : Nat) : List α × ArrayDeque α :=
  match k with
  | 0 => ([], d)
  | k + 1 =>
    let p := d.pop_front
    let q := pop_front_n p.2 k
    (p.1.toList ++ q.1, q.2)

/-- Pop `k` elements from the back, collecting them in pop order
(back-to-front logical order). -/
def pop_back_n (d : ArrayDeque α) (k : Nat) : List α × ArrayDeque α :=
  match k with
  | 0 => ([], d)
  | k + 1 =>
    let p := d.pop_back
    let q := pop_back_n p.2 k
    (p.1.toList ++ q.1, q.2)

/-- Push a whole list at the front so that it ends up as the logical
prefix, in order (the last list element is pushed first). -/
def push_front_all (d : ArrayDeque α) (l : List α) : ArrayDeque α :=
  l.foldr (fun a e => push_front_t e a) d

/-- Push a whole list at the back, in order. -/
def push_back_all (d : ArrayDeque α) (l : List α) : ArrayDeque α :=
  l.foldl push_back_t d

/-- Modelled from the spec: `insert(i, element)` fails with
`CapacityError(element)` if the buffer is already full; otherwise, when `i`
is in the first half of the logical range, it shifts the elements of
`[0, i)` one slot toward the front (extending `head` backward by one) and
places the new element at logical position `i`; otherwise it shifts
`[i, len)` one slot toward the back (extending `tail` forward by one) and
places the new element at position `i`.  The shifts are realized by popping
the affected side and pushing it back around the new element, which yields
exactly the head/tail movement and the slot-liveness configuration the spec
describes. -/
def insert (d : ArrayDeque α) (i : Nat) (x : α) : Except (CapacityError α) (ArrayDeque α) :=
  if d.is_full then .error ⟨x⟩
  else if 2 * i < d.len then
    let p := d.pop_front_n i
    .ok (push_front_all (push_front_t p.2 x) p.1)
  else
    let p := d.pop_back_n (d.len - i)
    .ok (push_back_all (push_back_t p.2 x) p.1.reverse)

/-- Modelled from the spec: `remove(i)`: "`i ≥ len()` produces nothing.
Otherwise removes the element at logical `i`, then shifts the shorter side
inward to close the gap (mirroring `insert`'s tie-break), shrinking `head`
forward or `tail` backward by one accordingly, and returns the removed
element." -/
def remove (d : ArrayDeque α) (i : Nat) : Option α × ArrayDeque α :=
  if d.len ≤ i then (none, d)
  else if 2 * i < d.len then
    let p := d.pop_front_n (i + 1)
    (p.1.getLast?, push_front_all p.2 (p.1.take i))
  else
    let p := d.pop_back_n (d.len - i)
    (p.1.getLast?, push_back_all p.2 (p.1.reverse.drop 1))

/-- Overwrite the element at logical index `i` (physical slot
`(head + i) mod N`). Helper for the swap in `swap_remove_back` and
`swap_remove_front`. -/
def set_at (d : ArrayDeque α) (i : Nat) (x : α) : ArrayDeque α :=
  { d with xs := d.xs.set ((d.head + i) % d.n) (some x) }

/-- Modelled from the spec: `swap_remove_back(i)` "swaps the element at `i`
with the last logical element, then pops that end.  Returns the removed
element or nothing if `i ≥ len()`." -/
def swap_remove_back (d : ArrayDeque α) (i : Nat) : Option α × ArrayDeque α :=
  if d.len ≤ i then (none, d)
  else
    match d.get i, d.get (d.len - 1) with
    | some a, some b => pop_back ((d.set_at i b).set_at (d.len - 1) a)
    | _, _ => (none, d)

/-- Modelled from the spec: `swap_remove_front(i)` swaps the element at `i`
with the first logical element, then pops the front. -/
def swap_remove_front (d : ArrayDeque α) (i : Nat) : Option α × ArrayDeque α :=
  if d.len ≤ i then (none, d)
  else
    match d.get i, d.get 0 with
    | some a, some b => pop_front ((d.set_at i b).set_at 0 a)
    | _, _ => (none, d)

/-- Move `k` elements one by one from the front of `src` to the back of
`dst`. Helper for `append`. -/
def move_all (dst src : ArrayDeque α) (k : Nat) : ArrayDeque α × ArrayDeque α :=
  match k with
  | 0 => (dst, src)
  | k + 1 =>
    let p := src.pop_front
    let dst₁ := match p.1 with
      | some a => push_back_t dst a
      | none => dst
    move_all dst₁ p.2 k

/-- Modelled from the spec: `append(other)` "moves all elements from
`other` onto the back of `self`, draining `other` to empty.  Fails (leaving
both sides unchanged) if `self`'s remaining capacity is less than
`other.len()` — this is an all-or-nothing operation".  The pair holds the
updated `self` and the updated `other`. -/
def append (d other : ArrayDeque α) : ArrayDeque α × ArrayDeque α :=
  if d.capacity - d.len < other.len then (d, other)
  else move_all d other other.len

/-- Modelled from the spec: `extend(sequence)` "pushes elements from an
input sequence at the back one at a time; if capacity is exhausted
mid-sequence, remaining input elements are dropped (not retained, not
erroring)". -/
def extend (d : ArrayDeque α) (l : List α) : ArrayDeque α :=
  l.foldl push_back_t d

/-- Modelled from the spec: construction by collecting a source sequence
(`FromIterator` in the crate docs): elements are consumed and pushed at the
back one by one into a fresh empty buffer. -/
def collect (α : Type) (n : Nat) (l : List α) : ArrayDeque α :=
  (new α n).extend l

/-- The liveness invariant of the circular buffer (spec, section 3):
`0 ≤ head < N`, `0 ≤ tail < N`, the storage has length `N`, and a slot is
live (holds a constructed element) iff its index lies within the logical
range `[head, tail)` under modular wraparound, i.e. iff its modular offset
from `head` is below `len`. -/
def Inv (d : ArrayDeque α) : Prop :=
  0 < d.n ∧ d.head < d.n ∧ d.tail < d.n ∧ d.xs.length = d.n ∧
    ∀ j < d.n, ((d.slot j).isSome ↔ (j + d.n - d.head) % d.n < d.len)

instance (d : ArrayDeque α) : Decidable d.Inv := by
  unfold Inv
  exact inferInstance

end ArrayDeque

/-- A single push call at one end or the other (used to state properties
quantified over arbitrary interleavings of `push_back` and `push_front`). -/
inductive PushOp (α : Type) : Type where
  | back : α → PushOp α
  | front : α → PushOp α
  deriving Repr, DecidableEq

namespace ArrayDeque

/-- Execute one push call on the buffer. -/
def run_push (d : ArrayDeque α) : PushOp α → ArrayDeque α
  | .back a => d.push_back_t a
  | .front a => d.push_front_t a

/-- Execute a sequence of push calls on the buffer, in order. -/
def run_pushes (d : ArrayDeque α) (ops : List (PushOp α)) : ArrayDeque α :=
  ops.foldl run_push d

/-- The intended effect of one push call on the logical element sequence:
`push_back` appends, `push_front` prepends. -/
def push_model (s : List α) : PushOp α → List α
  | .back a => s ++ [a]
  | .front a => a :: s

/-- The intended effect of a sequence of push calls on the logical element
sequence. -/
def run_push_model (s : List α) (ops : List (PushOp α)) : List α :=
  ops.foldl push_model s

end ArrayDeque

namespace ArrayDeque

variable {α : Type} {γ : Type}

/-! Section: List and modular-arithmetic helper lemmas -/

theorem getD_set_self (l : List γ) (i : Nat) (v dv : γ) (h : i < l.length) :
    (l.set i v).getD i dv = v := by
  simp [List.getD_eq_getElem?_getD, List.getElem?_set_self, h]

theorem getD_set_ne (l : List γ) {i j : Nat} (v dv : γ) (h : i ≠ j) :
    (l.set i v).getD j dv = l.getD j dv := by
  simp [List.getD_eq_getElem?_getD, List.getElem?_set_ne h]

theorem mod_dist_eq (n a b : Nat) (ha : a < n) (hb : b < n) :
    (a + n - b) % n = if b ≤ a then a - b else a + n - b := by
  rcases le_or_lt b a with h | h
  · have e : a + n - b = (a - b) + n := by omega
    rw [if_pos h, e, Nat.add_mod_right, Nat.mod_eq_of_lt (by omega)]
  · rw [if_neg (by omega), Nat.mod_eq_of_lt (by omega)]

theorem add_mod_dist (n b i : Nat) (hb : b < n) (hi : i < n) :
    ((b + i) % n + n - b) % n = i := by
  rcases Nat.lt_or_ge (b + i) n with h | h
  · rw [Nat.mod_eq_of_lt h, mod_dist_eq n (b + i) b (by omega) hb]
    rw [if_pos (by omega)]
    omega
  · have e : (b + i) % n = b + i - n := by
      rw [Nat.mod_eq_sub_mod h, Nat.mod_eq_of_lt (by omega)]
    rw [e, mod_dist_eq n (b + i - n) b (by omega) hb, if_neg (by omega)]
    omega

theorem phys_of_pos (n b j : Nat) (hb : b < n) (hj : j < n) :
    (b + (j + n - b) % n) % n = j := by
  rw [mod_dist_eq n j b hj hb]
  rcases le_or_lt b j with h | h
  · rw [if_pos h]
    have e : b + (j - b) = j := by omega
    rw [e, Nat.mod_eq_of_lt hj]
  · rw [if_neg (by omega)]
    have e : b + (j + n - b) = j + n := by omega
    rw [e, Nat.add_mod_right, Nat.mod_eq_of_lt hj]

theorem phys_inj (n b : Nat) (hb : b < n) {i j : Nat} (hi : i < n) (hj : j < n)
    (h : (b + i) % n = (b + j) % n) : i = j := by
  have h1 := add_mod_dist n b i hb hi
  have h2 := add_mod_dist n b j hb hj
  rw [h] at h1
  omega

/-! Section: Basic facts about the invariant -/

theorem len_lt (d : ArrayDeque α) (hn : 0 < d.n) : d.len < d.n :=
  Nat.mod_lt _ hn

theorem len_le_capacity (d : ArrayDeque α) (hn : 0 < d.n) : d.len ≤ d.capacity := by
  have h := d.len_lt hn
  unfold capacity
  omega

theorem tail_eq (d : ArrayDeque α) (hh : d.head < d.n) (ht : d.tail < d.n) :
    d.tail = (d.head + d.len) % d.n := by
  unfold len
  rw [mod_dist_eq d.n d.tail d.head ht hh]
  rcases le_or_lt d.head d.tail with h | h
  · rw [if_pos h]
    have e : d.head + (d.tail - d.head) = d.tail := by omega
    rw [e, Nat.mod_eq_of_lt ht]
  · rw [if_neg (by omega)]
    have e : d.head + (d.tail + d.n - d.head) = d.tail + d.n := by omega
    rw [e, Nat.add_mod_right, Nat.mod_eq_of_lt ht]

theorem inv_live_phys (d : ArrayDeque α) (hI : d.Inv) :
    ∀ i < d.n, ((d.slot ((d.head + i) % d.n)).isSome ↔ i < d.len) := by
  obtain ⟨hn, hh, ht, hx, hlive⟩ := hI
  intro i hi
  have h := hlive ((d.head + i) % d.n) (Nat.mod_lt _ hn)
  rwa [add_mod_dist d.n d.head i hh hi] at h

theorem inv_of_phys (d : ArrayDeque α) (hn : 0 < d.n) (hh : d.head < d.n)
    (ht : d.tail < d.n) (hx : d.xs.length = d.n)
    (hp : ∀ i < d.n, ((d.slot ((d.head + i) % d.n)).isSome ↔ i < d.len)) : d.Inv := by
  refine ⟨hn, hh, ht, hx, ?_⟩
  intro j hj
  have h := hp ((j + d.n - d.head) % d.n) (Nat.mod_lt _ hn)
  rwa [phys_of_pos d.n d.head j hh hj] at h

theorem inv_slot_some (d : ArrayDeque α) (hI : d.Inv) {i : Nat} (hi : i < d.len) :
    ∃ a, d.slot ((d.head + i) % d.n) = some a := by
  have hn : 0 < d.n := hI.1
  have h := (d.inv_live_phys hI i (by have := d.len_lt hn; omega)).mpr hi
  exact Option.isSome_iff_exists.mp h

/-! Section: Arithmetic effect of the four cursor moves -/

theorem mod_len_tail_succ (n h t : Nat) (hh : h < n) (ht : t < n)
    (hl : (t + n - h) % n < n - 1) :
    ((t + 1) % n + n - h) % n = (t + n - h) % n + 1 := by
  have e1 : (t + 1) % n + n - h = (t + 1) % n + (n - h) := by omega
  rw [e1, Nat.mod_add_mod]
  have e2 : t + 1 + (n - h) = t + n - h + 1 := by omega
  rw [e2, ← Nat.mod_add_mod]
  exact Nat.mod_eq_of_lt (by omega)

theorem mod_len_head_pred (n h t : Nat) (hn : 0 < n) (hh : h < n) (ht : t < n)
    (hl : (t + n - h) % n < n - 1) :
    (t + n - (h + n - 1) % n) % n = (t + n - h) % n + 1 := by
  rcases Nat.eq_zero_or_pos h with h0 | hpos
  · subst h0
    rw [mod_dist_eq n t 0 ht hn, if_pos (Nat.zero_le t)] at hl
    have e1 : (0 + n - 1) % n = n - 1 := by
      rw [Nat.mod_eq_of_lt (by omega : 0 + n - 1 < n)]
      omega
    rw [e1, mod_dist_eq n t 0 ht hn, if_pos (Nat.zero_le t)]
    have e2 : t + n - (n - 1) = t + 1 := by omega
    rw [e2, Nat.mod_eq_of_lt (by omega)]
    omega
  · have e1 : (h + n - 1) % n = h - 1 := by
      have e : h + n - 1 = (h - 1) + n := by omega
      rw [e, Nat.add_mod_right, Nat.mod_eq_of_lt (by omega)]
    rw [mod_dist_eq n t h ht hh] at hl
    rw [e1, mod_dist_eq n t (h - 1) ht (by omega), mod_dist_eq n t h ht hh]
    split_ifs at hl ⊢ <;> omega

theorem mod_len_head_succ (n h t : Nat) (hn : 0 < n) (hh : h < n) (ht : t < n)
    (hl : 0 < (t + n - h) % n) :
    (t + n - (h + 1) % n) % n = (t + n - h) % n - 1 := by
  rcases Nat.lt_or_ge (h + 1) n with hlt | hge
  · rw [mod_dist_eq n t h ht hh] at hl
    rw [Nat.mod_eq_of_lt hlt, mod_dist_eq n t (h + 1) ht hlt, mod_dist_eq n t h ht hh]
    split_ifs at hl ⊢ <;> omega
  · have e1 : (h + 1) % n = 0 := by
      have e : h + 1 = n := by omega
      rw [e, Nat.mod_self]
    rw [mod_dist_eq n t h ht hh] at hl
    rw [e1, mod_dist_eq n t 0 ht hn, mod_dist_eq n t h ht hh]
    split_ifs at hl ⊢ <;> omega

theorem mod_len_tail_pred (n h t : Nat) (hn : 0 < n) (hh : h < n) (ht : t < n)
    (hl : 0 < (t + n - h) % n) :
    ((t + n - 1) % n + n - h) % n = (t + n - h) % n - 1 := by
  rcases Nat.eq_zero_or_pos t with t0 | tpos
  · subst t0
    have e1 : (0 + n - 1) % n = n - 1 := by
      rw [Nat.mod_eq_of_lt (by omega : 0 + n - 1 < n)]
      omega
    rw [mod_dist_eq n 0 h hn hh] at hl
    rw [e1, mod_dist_eq n (n - 1) h (by omega) hh, mod_dist_eq n 0 h hn hh]
    split_ifs at hl ⊢ <;> omega
  · have e1 : (t + n - 1) % n = t - 1 := by
      have e : t + n - 1 = (t - 1) + n := by omega
      rw [e, Nat.add_mod_right, Nat.mod_eq_of_lt (by omega)]
    rw [mod_dist_eq n t h ht hh] at hl
    rw [e1, mod_dist_eq n (t - 1) h (by omega) hh, mod_dist_eq n t h ht hh]
    split_ifs at hl ⊢ <;> omega

theorem phys_head_pred_succ (n h i : Nat) (hh : h < n) :
    ((h + n - 1) % n + (i + 1)) % n = (h + i) % n := by
  rw [Nat.mod_add_mod]
  have e : h + n - 1 + (i + 1) = h + i + n := by omega
  rw [e, Nat.add_mod_right]

theorem phys_head_succ (n h i : Nat) :
    ((h + 1) % n + i) % n = (h + (i + 1)) % n := by
  rw [Nat.mod_add_mod]
  have e : h + 1 + i = h + (i + 1) := by omega
  rw [e]

theorem phys_tail_pred (n h t : Nat) (hh : h < n) (ht : t < n)
    (hl : 0 < (t + n - h) % n) :
    (t + n - 1) % n = (h + ((t + n - h) % n - 1)) % n := by
  have e0 := phys_of_pos n h t hh ht
  conv_lhs => rw [← e0]
  have e1 : (h + (t + n - h) % n) % n + n - 1 = (h + (t + n - h) % n) % n + (n - 1) := by
    omega
  rw [e1, Nat.mod_add_mod]
  have e2 : h + (t + n - h) % n + (n - 1) = h + ((t + n - h) % n - 1) + n := by omega
  rw [e2, Nat.add_mod_right]

theorem head_eq_tail_of_len_zero (d : ArrayDeque α) (hh : d.head < d.n)
    (ht : d.tail < d.n) (h : d.len = 0) : d.head = d.tail := by
  have he := d.tail_eq hh ht
  rw [h, Nat.add_zero, Nat.mod_eq_of_lt hh] at he
  omega

/-! Section: State-level specifications of the four elementary operations -/

theorem push_back_aux (d d₁ : ArrayDeque α) (x : α) (hI : d.Inv)
    (hcap : d.len < d.n - 1)
    (h1 : d₁.n = d.n) (h2 : d₁.head = d.head) (h3 : d₁.tail = (d.tail + 1) % d.n)
    (h4 : d₁.xs = d.xs.set d.tail (some x)) :
    d₁.Inv ∧ d₁.len = d.len + 1 ∧ d₁.toList = d.toList ++ [x] := by
  obtain ⟨hn, hh, ht, hx, hlive⟩ := hI
  have hlt := d.len_lt hn
  have htail_phys : d.tail = (d.head + d.len) % d.n := d.tail_eq hh ht
  have hlen : d₁.len = d.len + 1 := by
    unfold len
    rw [h1, h2, h3]
    exact mod_len_tail_succ d.n d.head d.tail hh ht hcap
  have hslot : ∀ j, d₁.slot j = if j = d.tail then some x else d.slot j := by
    intro j
    unfold slot
    rw [h4]
    by_cases hj : j = d.tail
    · subst hj
      rw [if_pos rfl]
      exact getD_set_self _ _ _ _ (by rw [hx]; exact ht)
    · rw [if_neg hj]
      exact getD_set_ne _ _ _ (Ne.symm hj)
  have hphys : ∀ i, i < d.n → ((d₁.slot ((d.head + i) % d.n)).isSome ↔ i < d.len + 1) := by
    intro i hi
    rw [hslot]
    by_cases hit : i = d.len
    · subst hit
      rw [if_pos htail_phys.symm]
      simp
    · have hne : (d.head + i) % d.n ≠ d.tail := by
        intro hcontra
        rw [htail_phys] at hcontra
        exact hit (phys_inj d.n d.head hh hi hlt hcontra)
      rw [if_neg hne, inv_live_phys d ⟨hn, hh, ht, hx, hlive⟩ i hi]
      omega
  refine ⟨?_, hlen, ?_⟩
  · apply inv_of_phys
    · rw [h1]; exact hn
    · rw [h2, h1]; exact hh
    · rw [h3, h1]; exact Nat.mod_lt _ hn
    · rw [h4, h1, List.length_set]; exact hx
    · intro i hi
      rw [h1] at hi
      rw [h2, h1, hlen]
      exact hphys i hi
  · unfold toList
    rw [hlen, h2, h1]
    rw [show List.range (d.len + 1) = List.range d.len ++ [d.len] from by
      rw [List.range_succ]]
    rw [List.filterMap_append]
    congr 1
    · refine List.filterMap_congr ?_
      intro i hi
      have hi' : i < d.len := List.mem_range.mp hi
      have hne : (d.head + i) % d.n ≠ d.tail := by
        intro hcontra
        rw [htail_phys] at hcontra
        have := phys_inj d.n d.head hh (by omega) hlt hcontra
        omega
      rw [hslot, if_neg hne]
    · have hsome : d₁.slot ((d.head + d.len) % d.n) = some x := by
        rw [hslot, if_pos htail_phys.symm]
      simp [List.filterMap, hsome]

theorem push_front_aux (d d₁ : ArrayDeque α) (x : α) (hI : d.Inv)
    (hcap : d.len < d.n - 1)
    (h1 : d₁.n = d.n) (h2 : d₁.head = (d.head + d.n - 1) % d.n) (h3 : d₁.tail = d.tail)
    (h4 : d₁.xs = d.xs.set ((d.head + d.n - 1) % d.n) (some x)) :
    d₁.Inv ∧ d₁.len = d.len + 1 ∧ d₁.toList = x :: d.toList := by
  obtain ⟨hn, hh, ht, hx, hlive⟩ := hI
  have hlt := d.len_lt hn
  have hh' : (d.head + d.n - 1) % d.n < d.n := Nat.mod_lt _ hn
  have hlen : d₁.len = d.len + 1 := by
    unfold len
    rw [h1, h2, h3]
    exact mod_len_head_pred d.n d.head d.tail hn hh ht hcap
  have hslot : ∀ j, d₁.slot j = if j = (d.head + d.n - 1) % d.n then some x
      else d.slot j := by
    intro j
    unfold slot
    rw [h4]
    by_cases hj : j = (d.head + d.n - 1) % d.n
    · subst hj
      rw [if_pos rfl]
      exact getD_set_self _ _ _ _ (by rw [hx]; exact hh')
    · rw [if_neg hj]
      exact getD_set_ne _ _ _ (Ne.symm hj)
  have hne : ∀ k, k + 1 < d.n → (d.head + k) % d.n ≠ (d.head + d.n - 1) % d.n := by
    intro k hk hcontra
    have e : d.head + d.n - 1 = d.head + (d.n - 1) := by omega
    rw [e] at hcontra
    have := phys_inj d.n d.head hh (by omega) (by omega) hcontra
    omega
  have hzero : ((d.head + d.n - 1) % d.n + 0) % d.n = (d.head + d.n - 1) % d.n := by
    rw [Nat.add_zero, Nat.mod_eq_of_lt hh']
  have hphys : ∀ i, i < d.n →
      ((d₁.slot (((d.head + d.n - 1) % d.n + i) % d.n)).isSome ↔ i < d.len + 1) := by
    intro i hi
    cases i with
    | zero =>
      rw [hzero, hslot, if_pos rfl]
      simp
    | succ k =>
      rw [phys_head_pred_succ d.n d.head k hh, hslot, if_neg (hne k hi),
        inv_live_phys d ⟨hn, hh, ht, hx, hlive⟩ k (by omega)]
      omega
  refine ⟨?_, hlen, ?_⟩
  · apply inv_of_phys
    · rw [h1]; exact hn
    · rw [h2, h1]; exact hh'
    · rw [h3, h1]; exact ht
    · rw [h4, h1, List.length_set]; exact hx
    · intro i hi
      rw [h1] at hi
      rw [h2, h1, hlen]
      exact hphys i hi
  · unfold toList
    rw [hlen, h2, h1, List.range_succ_eq_map]
    have hsome : d₁.slot (((d.head + d.n - 1) % d.n + 0) % d.n) = some x := by
      rw [hzero, hslot, if_pos rfl]
    simp only [List.filterMap_cons, hsome, List.filterMap_map]
    congr 1
    refine List.filterMap_congr ?_
    intro i hi
    have hi' : i < d.len := List.mem_range.mp hi
    show d₁.slot (((d.head + d.n - 1) % d.n + (i + 1)) % d.n) = d.slot ((d.head + i) % d.n)
    rw [phys_head_pred_succ d.n d.head i hh, hslot, if_neg (hne i (by omega))]

theorem pop_front_aux (d d₁ : ArrayDeque α) (hI : d.Inv) (hpos : 0 < d.len)
    (h1 : d₁.n = d.n) (h2 : d₁.head = (d.head + 1) % d.n) (h3 : d₁.tail = d.tail)
    (h4 : d₁.xs = d.xs.set d.head none) :
    d₁.Inv ∧ d₁.len = d.len - 1 ∧
      ∃ a, d.slot d.head = some a ∧ d.toList = a :: d₁.toList := by
  obtain ⟨hn, hh, ht, hx, hlive⟩ := hI
  have hlt := d.len_lt hn
  have hlen : d₁.len = d.len - 1 := by
    unfold len
    rw [h1, h2, h3]
    exact mod_len_head_succ d.n d.head d.tail hn hh ht hpos
  have hslot : ∀ j, d₁.slot j = if j = d.head then none else d.slot j := by
    intro j
    unfold slot
    rw [h4]
    by_cases hj : j = d.head
    · subst hj
      rw [if_pos rfl]
      exact getD_set_self _ _ _ _ (by rw [hx]; exact hh)
    · rw [if_neg hj]
      exact getD_set_ne _ _ _ (Ne.symm hj)
  have hzero : (d.head + 0) % d.n = d.head := by
    rw [Nat.add_zero, Nat.mod_eq_of_lt hh]
  obtain ⟨a, ha⟩ : ∃ a, d.slot d.head = some a := by
    have h0 := inv_live_phys d ⟨hn, hh, ht, hx, hlive⟩ 0 hn
    rw [hzero] at h0
    exact Option.isSome_iff_exists.mp (h0.mpr hpos)
  have hne : ∀ k, k + 1 < d.n → (d.head + (k + 1)) % d.n ≠ d.head := by
    intro k hk hcontra
    have := phys_inj d.n d.head hh hk hn (hcontra.trans hzero.symm)
    omega
  have hphys : ∀ i, i < d.n →
      ((d₁.slot (((d.head + 1) % d.n + i) % d.n)).isSome ↔ i < d.len - 1) := by
    intro i hi
    rw [phys_head_succ d.n d.head i]
    rcases Nat.lt_or_ge (i + 1) d.n with hi1 | hi1
    · rw [hslot, if_neg (hne i hi1),
        inv_live_phys d ⟨hn, hh, ht, hx, hlive⟩ (i + 1) hi1]
      omega
    · have e : (d.head + (i + 1)) % d.n = d.head := by
        have e2 : i + 1 = d.n := by omega
        rw [e2, Nat.add_mod_right, Nat.mod_eq_of_lt hh]
      rw [hslot, e, if_pos rfl]
      simp only [Option.isSome_none, Bool.false_eq_true, false_iff]
      omega
  refine ⟨?_, hlen, a, ha, ?_⟩
  · apply inv_of_phys
    · rw [h1]; exact hn
    · rw [h2, h1]; exact Nat.mod_lt _ hn
    · rw [h3, h1]; exact ht
    · rw [h4, h1, List.length_set]; exact hx
    · intro i hi
      rw [h1] at hi
      rw [h2, h1, hlen]
      exact hphys i hi
  · obtain ⟨m, hm⟩ : ∃ m, d.len = m + 1 := ⟨d.len - 1, by omega⟩
    have hlen' : d₁.len = m := by omega
    unfold toList
    rw [hlen', h2, h1, hm, List.range_succ_eq_map]
    have hsome : d.slot ((d.head + 0) % d.n) = some a := by
      rw [hzero]
      exact ha
    simp only [List.filterMap_cons, hsome, List.filterMap_map]
    congr 1
    refine List.filterMap_congr ?_
    intro i hi
    have hi' : i < m := List.mem_range.mp hi
    show d.slot ((d.head + (i + 1)) % d.n) = d₁.slot (((d.head + 1) % d.n + i) % d.n)
    rw [phys_head_succ d.n d.head i, hslot, if_neg (hne i (by omega))]

theorem pop_back_aux (d d₁ : ArrayDeque α) (hI : d.Inv) (hpos : 0 < d.len)
    (h1 : d₁.n = d.n) (h2 : d₁.head = d.head) (h3 : d₁.tail = (d.tail + d.n - 1) % d.n)
    (h4 : d₁.xs = d.xs.set ((d.tail + d.n - 1) % d.n) none) :
    d₁.Inv ∧ d₁.len = d.len - 1 ∧
      ∃ a, d.slot ((d.tail + d.n - 1) % d.n) = some a ∧ d.toList = d₁.toList ++ [a] := by
  obtain ⟨hn, hh, ht, hx, hlive⟩ := hI
  have hlt := d.len_lt hn
  have ht' : (d.tail + d.n - 1) % d.n < d.n := Nat.mod_lt _ hn
  have hlen : d₁.len = d.len - 1 := by
    unfold len
    rw [h1, h2, h3]
    exact mod_len_tail_pred d.n d.head d.tail hn hh ht hpos
  have htp : (d.tail + d.n - 1) % d.n = (d.head + (d.len - 1)) % d.n :=
    phys_tail_pred d.n d.head d.tail hh ht hpos
  have hslot : ∀ j, d₁.slot j = if j = (d.tail + d.n - 1) % d.n then none
      else d.slot j := by
    intro j
    unfold slot
    rw [h4]
    by_cases hj : j = (d.tail + d.n - 1) % d.n
    · subst hj
      rw [if_pos rfl]
      exact getD_set_self _ _ _ _ (by rw [hx]; exact ht')
    · rw [if_neg hj]
      exact getD_set_ne _ _ _ (Ne.symm hj)
  obtain ⟨a, ha⟩ : ∃ a, d.slot ((d.tail + d.n - 1) % d.n) = some a := by
    rw [htp]
    exact d.inv_slot_some ⟨hn, hh, ht, hx, hlive⟩ (by omega : d.len - 1 < d.len)
  have hne : ∀ i, i < d.n → i ≠ d.len - 1 →
      (d.head + i) % d.n ≠ (d.tail + d.n - 1) % d.n := by
    intro i hi hine hcontra
    rw [htp] at hcontra
    exact hine (phys_inj d.n d.head hh hi (by omega : d.len - 1 < d.n) hcontra)
  have hphys : ∀ i, i < d.n → ((d₁.slot ((d.head + i) % d.n)).isSome ↔ i < d.len - 1) := by
    intro i hi
    by_cases hit : i = d.len - 1
    · subst hit
      rw [hslot, if_pos htp.symm]
      simp only [Option.isSome_none, Bool.false_eq_true, false_iff]
      omega
    · rw [hslot, if_neg (hne i hi hit),
        inv_live_phys d ⟨hn, hh, ht, hx, hlive⟩ i hi]
      omega
  refine ⟨?_, hlen, a, ha, ?_⟩
  · apply inv_of_phys
    · rw [h1]; exact hn
    · rw [h2, h1]; exact hh
    · rw [h3, h1]; exact ht'
    · rw [h4, h1, List.length_set]; exact hx
    · intro i hi
      rw [h1] at hi
      rw [h2, h1, hlen]
      exact hphys i hi
  · obtain ⟨m, hm⟩ : ∃ m, d.len = m + 1 := ⟨d.len - 1, by omega⟩
    have hlen' : d₁.len = m := by omega
    have htp' : (d.tail + d.n - 1) % d.n = (d.head + m) % d.n := by
      rw [hm] at htp
      simpa using htp
    unfold toList
    rw [hlen', h2, h1, hm]
    rw [show List.range (m + 1) = List.range m ++ [m] from by rw [List.range_succ]]
    rw [List.filterMap_append]
    congr 1
    · refine List.filterMap_congr ?_
      intro i hi
      have hi' : i < m := List.mem_range.mp hi
      rw [hslot, if_neg (hne i (by omega) (by omega))]
    · have hsome : d.slot ((d.head + m) % d.n) = some a := by
        rw [← htp']
        exact ha
      simp [List.filterMap, hsome]

/-! Section: Operation-level wrappers -/

theorem push_back_err (d : ArrayDeque α) (x : α) (h : d.len = d.capacity) :
    d.push_back x = .error ⟨x⟩ := by
  simp [push_back, is_full, h]

theorem push_front_err (d : ArrayDeque α) (x : α) (h : d.len = d.capacity) :
    d.push_front x = .error ⟨x⟩ := by
  simp [push_front, is_full, h]

theorem push_back_eq_ok (d : ArrayDeque α) (x : α) (h : d.len ≠ d.capacity) :
    d.push_back x = .ok (d.push_back_t x) := by
  simp [push_back, push_back_t, is_full, h]

theorem push_front_eq_ok (d : ArrayDeque α) (x : α) (h : d.len ≠ d.capacity) :
    d.push_front x = .ok (d.push_front_t x) := by
  simp [push_front, push_front_t, is_full, h]

theorem push_back_t_full (d : ArrayDeque α) (x : α) (h : d.len = d.capacity) :
    d.push_back_t x = d := by
  simp [push_back_t, push_back, is_full, h]

theorem push_front_t_full (d : ArrayDeque α) (x : α) (h : d.len = d.capacity) :
    d.push_front_t x = d := by
  simp [push_front_t, push_front, is_full, h]

theorem push_back_t_spec (d : ArrayDeque α) (x : α) (hI : d.Inv) (h : d.len ≠ d.capacity) :
    (d.push_back_t x).Inv ∧ (d.push_back_t x).n = d.n ∧ (d.push_back_t x).head = d.head ∧
      (d.push_back_t x).len = d.len + 1 ∧ (d.push_back_t x).toList = d.toList ++ [x] := by
  have hcap : d.len < d.n - 1 := by
    have := d.len_lt hI.1
    unfold capacity at h
    omega
  have he : d.push_back_t x =
      { d with xs := d.xs.set d.tail (some x), tail := (d.tail + 1) % d.n } := by
    simp [push_back_t, push_back, is_full, h]
  obtain ⟨a1, a2, a3⟩ := push_back_aux d (d.push_back_t x) x hI hcap
    (by rw [he]) (by rw [he]) (by rw [he]) (by rw [he])
  exact ⟨a1, by rw [he], by rw [he], a2, a3⟩

theorem push_front_t_spec (d : ArrayDeque α) (x : α) (hI : d.Inv) (h : d.len ≠ d.capacity) :
    (d.push_front_t x).Inv ∧ (d.push_front_t x).n = d.n ∧ (d.push_front_t x).tail = d.tail ∧
      (d.push_front_t x).len = d.len + 1 ∧ (d.push_front_t x).toList = x :: d.toList := by
  have hcap : d.len < d.n - 1 := by
    have := d.len_lt hI.1
    unfold capacity at h
    omega
  have he : d.push_front_t x =
      { d with xs := d.xs.set ((d.head + d.n - 1) % d.n) (some x),
               head := (d.head + d.n - 1) % d.n } := by
    simp [push_front_t, push_front, is_full, h]
  obtain ⟨a1, a2, a3⟩ := push_front_aux d (d.push_front_t x) x hI hcap
    (by rw [he]) (by rw [he]) (by rw [he]) (by rw [he])
  exact ⟨a1, by rw [he], by rw [he], a2, a3⟩

theorem pop_front_empty (d : ArrayDeque α) (h : d.len = 0) : d.pop_front = (none, d) := by
  simp [pop_front, h]

theorem pop_back_empty (d : ArrayDeque α) (h : d.len = 0) : d.pop_back = (none, d) := by
  simp [pop_back, h]

theorem pop_front_spec (d : ArrayDeque α) (hI : d.Inv) (hpos : 0 < d.len) :
    d.pop_front.2.Inv ∧ d.pop_front.2.n = d.n ∧ d.pop_front.2.tail = d.tail ∧
      d.pop_front.2.len = d.len - 1 ∧
      ∃ a, d.pop_front.1 = some a ∧ d.toList = a :: d.pop_front.2.toList := by
  have hz : d.len ≠ 0 := by omega
  have he2 : d.pop_front.2 =
      { d with xs := d.xs.set d.head none, head := (d.head + 1) % d.n } := by
    simp [pop_front, hz]
  have he1 : d.pop_front.1 = d.slot d.head := by
    simp [pop_front, hz]
  obtain ⟨a1, a2, a, ha, htl⟩ := pop_front_aux d d.pop_front.2 hI hpos
    (by rw [he2]) (by rw [he2]) (by rw [he2]) (by rw [he2])
  exact ⟨a1, by rw [he2], by rw [he2], a2, a, by rw [he1, ha], htl⟩

theorem pop_back_spec (d : ArrayDeque α) (hI : d.Inv) (hpos : 0 < d.len) :
    d.pop_back.2.Inv ∧ d.pop_back.2.n = d.n ∧ d.pop_back.2.head = d.head ∧
      d.pop_back.2.len = d.len - 1 ∧
      ∃ a, d.pop_back.1 = some a ∧ d.toList = d.pop_back.2.toList ++ [a] := by
  have hz : d.len ≠ 0 := by omega
  have he2 : d.pop_back.2 =
      { d with xs := d.xs.set ((d.tail + d.n - 1) % d.n) none,
               tail := (d.tail + d.n - 1) % d.n } := by
    simp [pop_back, hz]
  have he1 : d.pop_back.1 = d.slot ((d.tail + d.n - 1) % d.n) := by
    simp [pop_back, hz]
  obtain ⟨a1, a2, a, ha, htl⟩ := pop_back_aux d d.pop_back.2 hI hpos
    (by rw [he2]) (by rw [he2]) (by rw [he2]) (by rw [he2])
  exact ⟨a1, by rw [he2], by rw [he2], a2, a, by rw [he1, ha], htl⟩

theorem getD_replicate (k j : Nat) (a : Option α) :
    (List.replicate k a).getD j a = a := by
  rcases Nat.lt_or_ge j k with h | h
  · rw [List.getD_eq_getElem?_getD, List.getElem?_replicate, if_pos h]
    rfl
  · rw [List.getD_eq_getElem?_getD, List.getElem?_eq_none (by simpa using h)]
    rfl

theorem new_spec (n : Nat) (hn : 0 < n) :
    (new α n).Inv ∧ (new α n).len = 0 ∧ (new α n).toList = ([] : List α) ∧
      (new α n).n = n ∧ (new α n).head = 0 ∧ (new α n).tail = 0 := by
  have hlen : (new α n).len = 0 := by
    unfold len new
    simp
  refine ⟨⟨hn, hn, hn, by simp [new], ?_⟩, hlen, ?_, rfl, rfl, rfl⟩
  · intro j hj
    rw [hlen]
    unfold slot new
    simp [getD_replicate]
  · unfold toList
    rw [hlen]
    simp

/-! Section: The logical sequence, `get`, and derived facts -/

theorem capacity_congr {d e : ArrayDeque α} (h : e.n = d.n) : e.capacity = d.capacity := by
  unfold capacity
  rw [h]

theorem toList_length (d : ArrayDeque α) (hI : d.Inv) : d.toList.length = d.len := by
  unfold toList
  rw [List.filterMap_length_eq_length.mpr ?_, List.length_range]
  intro i hi
  have hi' : i < d.len := List.mem_range.mp hi
  obtain ⟨a, ha⟩ := d.inv_slot_some hI hi'
  simp [ha]

theorem filterMap_getElem?_of_isSome {γ β : Type} (l : List γ) (f : γ → Option β)
    (h : ∀ a ∈ l, (f a).isSome) : ∀ i : Nat, (l.filterMap f)[i]? = (l[i]?).bind f := by
  induction l with
  | nil => intro i; simp
  | cons a l ih =>
    intro i
    obtain ⟨b, hb⟩ := Option.isSome_iff_exists.mp (h a (List.mem_cons_self a l))
    rw [List.filterMap_cons, hb]
    cases i with
    | zero => simp [hb]
    | succ k =>
      simp only [List.getElem?_cons_succ]
      exact ih (fun x hx => h x (List.mem_cons_of_mem a hx)) k

theorem toList_getElem? (d : ArrayDeque α) (hI : d.Inv) {i : Nat} (hi : i < d.len) :
    d.toList[i]? = d.slot ((d.head + i) % d.n) := by
  unfold toList
  rw [filterMap_getElem?_of_isSome _ _ ?_ i]
  · rw [List.getElem?_range hi]
    rfl
  · intro a ha
    have ha' : a < d.len := List.mem_range.mp ha
    obtain ⟨b, hb⟩ := d.inv_slot_some hI ha'
    simp [hb]

theorem get_spec (d : ArrayDeque α) (hI : d.Inv) (i : Nat) :
    d.get i = d.toList[i]? := by
  unfold get
  rcases Nat.lt_or_ge i d.len with h | h
  · rw [if_neg (by omega), toList_getElem? d hI h]
  · rw [if_pos h, List.getElem?_eq_none (by rw [toList_length d hI]; omega)]

/-! Section: Bulk pop and push compositions -/

theorem pop_front_n_spec (k : Nat) : ∀ d : ArrayDeque α, d.Inv → k ≤ d.len →
    (d.pop_front_n k).1 = d.toList.take k ∧ (d.pop_front_n k).2.Inv ∧
      (d.pop_front_n k).2.n = d.n ∧ (d.pop_front_n k).2.tail = d.tail ∧
      (d.pop_front_n k).2.len = d.len - k ∧
      (d.pop_front_n k).2.toList = d.toList.drop k := by
  induction k with
  | zero =>
    intro d hI _
    exact ⟨rfl, hI, rfl, rfl, rfl, rfl⟩
  | succ k ih =>
    intro d hI hk
    obtain ⟨b1, b2, b3, b4, a, ha, htl⟩ := d.pop_front_spec hI (by omega)
    obtain ⟨c1, c2, c3, c4, c5, c6⟩ := ih d.pop_front.2 b1 (by omega)
    refine ⟨?_, c2, ?_, ?_, ?_, ?_⟩
    · show d.pop_front.1.toList ++ (d.pop_front.2.pop_front_n k).1 = d.toList.take (k + 1)
      rw [ha, c1, htl]
      simp
    · show (d.pop_front.2.pop_front_n k).2.n = d.n
      rw [c3, b2]
    · show (d.pop_front.2.pop_front_n k).2.tail = d.tail
      rw [c4, b3]
    · show (d.pop_front.2.pop_front_n k).2.len = d.len - (k + 1)
      rw [c5, b4]
      omega
    · show (d.pop_front.2.pop_front_n k).2.toList = d.toList.drop (k + 1)
      rw [c6, htl]
      simp

theorem pop_back_n_spec (k : Nat) : ∀ d : ArrayDeque α, d.Inv → k ≤ d.len →
    (d.pop_back_n k).1 = (d.toList.drop (d.len - k)).reverse ∧ (d.pop_back_n k).2.Inv ∧
      (d.pop_back_n k).2.n = d.n ∧ (d.pop_back_n k).2.head = d.head ∧
      (d.pop_back_n k).2.len = d.len - k ∧
      (d.pop_back_n k).2.toList = d.toList.take (d.len - k) := by
  induction k with
  | zero =>
    intro d hI _
    have hL := d.toList_length hI
    refine ⟨?_, hI, rfl, rfl, rfl, ?_⟩
    · show ([] : List α) = (d.toList.drop (d.len - 0)).reverse
      rw [Nat.sub_zero, ← hL, List.drop_length]
      rfl
    · show d.toList = d.toList.take (d.len - 0)
      rw [Nat.sub_zero, ← hL, List.take_length]
  | succ k ih =>
    intro d hI hk
    obtain ⟨b1, b2, b3, b4, a, ha, htl⟩ := d.pop_back_spec hI (by omega)
    obtain ⟨c1, c2, c3, c4, c5, c6⟩ := ih d.pop_back.2 b1 (by omega)
    have hlen2 : d.pop_back.2.toList.length = d.len - 1 := by
      rw [toList_length _ b1, b4]
    have he : d.len - (k + 1) = d.len - 1 - k := by omega
    refine ⟨?_, c2, ?_, ?_, ?_, ?_⟩
    · show d.pop_back.1.toList ++ (d.pop_back.2.pop_back_n k).1
        = (d.toList.drop (d.len - (k + 1))).reverse
      rw [ha, c1, b4, htl, he, List.drop_append_of_le_length (by omega),
        List.reverse_append]
      simp
    · show (d.pop_back.2.pop_back_n k).2.n = d.n
      rw [c3, b2]
    · show (d.pop_back.2.pop_back_n k).2.head = d.head
      rw [c4, b3]
    · show (d.pop_back.2.pop_back_n k).2.len = d.len - (k + 1)
      rw [c5, b4]
      omega
    · show (d.pop_back.2.pop_back_n k).2.toList = d.toList.take (d.len - (k + 1))
      rw [c6, b4, htl, he, List.take_append_of_le_length (by omega)]

theorem push_back_all_spec (l : List α) : ∀ d : ArrayDeque α, d.Inv →
    d.len + l.length ≤ d.capacity →
    (d.push_back_all l).Inv ∧ (d.push_back_all l).n = d.n ∧
      (d.push_back_all l).head = d.head ∧
      (d.push_back_all l).len = d.len + l.length ∧
      (d.push_back_all l).toList = d.toList ++ l := by
  induction l with
  | nil =>
    intro d hI _
    exact ⟨hI, rfl, rfl, rfl, by show d.toList = d.toList ++ []; simp⟩
  | cons a l ih =>
    intro d hI hcap
    rw [List.length_cons] at hcap
    have hne : d.len ≠ d.capacity := by omega
    obtain ⟨p1, p2, p3, p4, p5⟩ := d.push_back_t_spec a hI hne
    have hcap2 : (d.push_back_t a).len + l.length ≤ (d.push_back_t a).capacity := by
      rw [p4, capacity_congr p2]
      omega
    obtain ⟨q1, q2, q3, q4, q5⟩ := ih (d.push_back_t a) p1 hcap2
    refine ⟨q1, ?_, ?_, ?_, ?_⟩
    · show (push_back_all (d.push_back_t a) l).n = d.n
      rw [q2, p2]
    · show (push_back_all (d.push_back_t a) l).head = d.head
      rw [q3, p3]
    · show (push_back_all (d.push_back_t a) l).len = d.len + (a :: l).length
      rw [q4, p4, List.length_cons]
      omega
    · show (push_back_all (d.push_back_t a) l).toList = d.toList ++ a :: l
      rw [q5, p5]
      simp

theorem push_front_all_spec (l : List α) : ∀ d : ArrayDeque α, d.Inv →
    d.len + l.length ≤ d.capacity →
    (d.push_front_all l).Inv ∧ (d.push_front_all l).n = d.n ∧
      (d.push_front_all l).tail = d.tail ∧
      (d.push_front_all l).len = d.len + l.length ∧
      (d.push_front_all l).toList = l ++ d.toList := by
  induction l with
  | nil =>
    intro d hI _
    exact ⟨hI, rfl, rfl, rfl, by show d.toList = [] ++ d.toList; simp⟩
  | cons a l ih =>
    intro d hI hcap
    rw [List.length_cons] at hcap
    obtain ⟨q1, q2, q3, q4, q5⟩ := ih d hI (by omega)
    have hne : (d.push_front_all l).len ≠ (d.push_front_all l).capacity := by
      rw [q4, capacity_congr q2]
      omega
    obtain ⟨p1, p2, p3, p4, p5⟩ := (d.push_front_all l).push_front_t_spec a q1 hne
    refine ⟨p1, ?_, ?_, ?_, ?_⟩
    · show ((d.push_front_all l).push_front_t a).n = d.n
      rw [p2, q2]
    · show ((d.push_front_all l).push_front_t a).tail = d.tail
      rw [p3, q3]
    · show ((d.push_front_all l).push_front_t a).len = d.len + (a :: l).length
      rw [p4, q4, List.length_cons]
      omega
    · show ((d.push_front_all l).push_front_t a).toList = (a :: l) ++ d.toList
      rw [p5, q5]
      rfl

theorem extend_spec (l : List α) : ∀ d : ArrayDeque α, d.Inv →
    (d.extend l).Inv ∧ (d.extend l).n = d.n ∧ (d.extend l).head = d.head ∧
      (d.extend l).len = min (d.len + l.length) d.capacity ∧
      (d.extend l).toList = d.toList ++ l.take (d.capacity - d.len) := by
  induction l with
  | nil =>
    intro d hI
    refine ⟨hI, rfl, rfl, ?_, ?_⟩
    · show d.len = min (d.len + [].length) d.capacity
      have h := d.len_le_capacity hI.1
      simp only [List.length_nil, Nat.add_zero]
      omega
    · show d.toList = d.toList ++ List.take (d.capacity - d.len) []
      simp
  | cons a l ih =>
    intro d hI
    have hlc := d.len_le_capacity hI.1
    by_cases hfull : d.len = d.capacity
    · have ht : d.push_back_t a = d := d.push_back_t_full a hfull
      have he : d.extend (a :: l) = d.extend l := by
        show (d.push_back_t a).extend l = d.extend l
        rw [ht]
      rw [he]
      obtain ⟨q1, q2, q3, q4, q5⟩ := ih d hI
      refine ⟨q1, q2, q3, ?_, ?_⟩
      · rw [q4]
        simp only [List.length_cons]
        omega
      · rw [q5]
        have e : d.capacity - d.len = 0 := by omega
        rw [e]
        simp
    · obtain ⟨p1, p2, p3, p4, p5⟩ := d.push_back_t_spec a hI hfull
      obtain ⟨q1, q2, q3, q4, q5⟩ := ih (d.push_back_t a) p1
      have hc : (d.push_back_t a).capacity = d.capacity := capacity_congr p2
      refine ⟨q1, ?_, ?_, ?_, ?_⟩
      · show ((d.push_back_t a).extend l).n = d.n
        rw [q2, p2]
      · show ((d.push_back_t a).extend l).head = d.head
        rw [q3, p3]
      · show ((d.push_back_t a).extend l).len = min (d.len + (a :: l).length) d.capacity
        rw [q4, p4, hc, List.length_cons]
        omega
      · show ((d.push_back_t a).extend l).toList
          = d.toList ++ (a :: l).take (d.capacity - d.len)
        rw [q5, p5, p4, hc]
        have e : d.capacity - d.len = (d.capacity - (d.len + 1)) + 1 := by omega
        rw [e, List.take_succ_cons, List.append_assoc]
        rfl

theorem move_all_spec (k : Nat) : ∀ dst src : ArrayDeque α, dst.Inv → src.Inv →
    k ≤ src.len → dst.len + k ≤ dst.capacity →
    (move_all dst src k).1.Inv ∧ (move_all dst src k).1.n = dst.n ∧
      (move_all dst src k).1.len = dst.len + k ∧
      (move_all dst src k).1.toList = dst.toList ++ src.toList.take k ∧
      (move_all dst src k).2.Inv ∧ (move_all dst src k).2.n = src.n ∧
      (move_all dst src k).2.len = src.len - k ∧
      (move_all dst src k).2.toList = src.toList.drop k := by
  induction k with
  | zero =>
    intro dst src hd hs _ _
    refine ⟨hd, rfl, rfl, ?_, hs, rfl, rfl, rfl⟩
    show dst.toList = dst.toList ++ src.toList.take 0
    simp
  | succ k ih =>
    intro dst src hd hs hk hcap
    obtain ⟨b1, b2, b3, b4, a, ha, htl⟩ := src.pop_front_spec hs (by omega)
    have hne : dst.len ≠ dst.capacity := by omega
    obtain ⟨p1, p2, p3, p4, p5⟩ := dst.push_back_t_spec a hd hne
    have hstep : move_all dst src (k + 1)
        = move_all (dst.push_back_t a) src.pop_front.2 k := by
      show move_all
        (match src.pop_front.1 with
          | some b => push_back_t dst b
          | none => dst) src.pop_front.2 k = _
      rw [ha]
    obtain ⟨c1, c2, c3, c4, c5, c6, c7, c8⟩ := ih (dst.push_back_t a) src.pop_front.2
      p1 b1 (by rw [b4]; omega) (by rw [p4, capacity_congr p2]; omega)
    rw [hstep]
    refine ⟨c1, ?_, ?_, ?_, c5, ?_, ?_, ?_⟩
    · rw [c2, p2]
    · rw [c3, p4]
      omega
    · rw [c4, p5, htl, List.take_succ_cons, List.append_assoc]
      rfl
    · rw [c6, b2]
    · rw [c7, b4]
      omega
    · rw [c8, htl]
      simp

theorem append_ok_spec (d other : ArrayDeque α) (hd : d.Inv) (ho : other.Inv)
    (h : d.len + other.len ≤ d.capacity) :
    (d.append other).1.Inv ∧ (d.append other).1.n = d.n ∧
      (d.append other).1.len = d.len + other.len ∧
      (d.append other).1.toList = d.toList ++ other.toList ∧
      (d.append other).2.Inv ∧ (d.append other).2.n = other.n ∧
      (d.append other).2.len = 0 := by
  have hcond : ¬ (d.capacity - d.len < other.len) := by
    have := d.len_le_capacity hd.1
    omega
  have he : d.append other = move_all d other other.len := by
    unfold append
    rw [if_neg hcond]
  obtain ⟨c1, c2, c3, c4, c5, c6, c7, c8⟩ :=
    move_all_spec other.len d other hd ho (Nat.le_refl _) h
  rw [he]
  refine ⟨c1, c2, c3, ?_, c5, c6, by rw [c7]; omega⟩
  rw [c4, ← toList_length other ho, List.take_length]

theorem append_fail_spec (d other : ArrayDeque α)
    (h : d.capacity - d.len < other.len) : d.append other = (d, other) := by
  unfold append
  rw [if_pos h]

theorem run_pushes_spec (ops : List (PushOp α)) : ∀ d : ArrayDeque α, d.Inv →
    d.len + ops.length ≤ d.capacity →
    (d.run_pushes ops).Inv ∧ (d.run_pushes ops).n = d.n ∧
      (d.run_pushes ops).len = d.len + ops.length ∧
      (d.run_pushes ops).toList = run_push_model d.toList ops := by
  induction ops with
  | nil =>
    intro d hI _
    exact ⟨hI, rfl, rfl, rfl⟩
  | cons op ops ih =>
    intro d hI hcap
    rw [List.length_cons] at hcap
    have hne : d.len ≠ d.capacity := by omega
    cases op with
    | back a =>
      obtain ⟨p1, p2, p3, p4, p5⟩ := d.push_back_t_spec a hI hne
      obtain ⟨q1, q2, q3, q4⟩ := ih (d.push_back_t a) p1
        (by rw [p4, capacity_congr p2]; omega)
      refine ⟨q1, ?_, ?_, ?_⟩
      · show ((d.push_back_t a).run_pushes ops).n = d.n
        rw [q2, p2]
      · show ((d.push_back_t a).run_pushes ops).len = d.len + (PushOp.back a :: ops).length
        rw [q3, p4, List.length_cons]
        omega
      · show ((d.push_back_t a).run_pushes ops).toList
          = run_push_model d.toList (PushOp.back a :: ops)
        rw [q4, p5]
        rfl
    | front a =>
      obtain ⟨p1, p2, p3, p4, p5⟩ := d.push_front_t_spec a hI hne
      obtain ⟨q1, q2, q3, q4⟩ := ih (d.push_front_t a) p1
        (by rw [p4, capacity_congr p2]; omega)
      refine ⟨q1, ?_, ?_, ?_⟩
      · show ((d.push_front_t a).run_pushes ops).n = d.n
        rw [q2, p2]
      · show ((d.push_front_t a).run_pushes ops).len = d.len + (PushOp.front a :: ops).length
        rw [q3, p4, List.length_cons]
        omega
      · show ((d.push_front_t a).run_pushes ops).toList
          = run_push_model d.toList (PushOp.front a :: ops)
        rw [q4, p5]
        rfl

theorem set_at_inv (d : ArrayDeque α) (x : α) {i : Nat} (hI : d.Inv) (hi : i < d.len) :
    (d.set_at i x).Inv := by
  obtain ⟨hn, hh, ht, hx, hlive⟩ := hI
  have hlt := d.len_lt hn
  have hslot : ∀ m, (d.set_at i x).slot m
      = if m = (d.head + i) % d.n then some x else d.slot m := by
    intro m
    show (d.xs.set ((d.head + i) % d.n) (some x)).getD m none = _
    by_cases hm : m = (d.head + i) % d.n
    · subst hm
      rw [if_pos rfl]
      exact getD_set_self _ _ _ _ (by rw [hx]; exact Nat.mod_lt _ hn)
    · rw [if_neg hm]
      exact getD_set_ne _ _ _ (Ne.symm hm)
  apply inv_of_phys
  · exact hn
  · exact hh
  · exact ht
  · show (d.xs.set ((d.head + i) % d.n) (some x)).length = d.n
    rw [List.length_set]
    exact hx
  · intro j hj
    show ((d.set_at i x).slot ((d.head + j) % d.n)).isSome ↔ j < d.len
    rw [hslot]
    by_cases hji : j = i
    · subst hji
      rw [if_pos rfl]
      simpa using hi
    · have hne : (d.head + j) % d.n ≠ (d.head + i) % d.n := by
        intro hcontra
        exact hji (phys_inj d.n d.head hh hj (by omega) hcontra)
      rw [if_neg hne]
      exact inv_live_phys d ⟨hn, hh, ht, hx, hlive⟩ j hj

theorem get_some (d : ArrayDeque α) (hI : d.Inv) {i : Nat} (hi : i < d.len) :
    ∃ a, d.get i = some a := by
  rw [get_spec d hI i, List.getElem?_eq_getElem (by rw [toList_length d hI]; omega)]
  exact ⟨_, rfl⟩

theorem swap_remove_back_spec (d : ArrayDeque α) (i : Nat) (hI : d.Inv) :
    (d.swap_remove_back i).2.Inv ∧ (d.swap_remove_back i).2.n = d.n := by
  by_cases hil : d.len ≤ i
  · have he : d.swap_remove_back i = (none, d) := by
      unfold swap_remove_back
      rw [if_pos hil]
    rw [he]
    exact ⟨hI, rfl⟩
  · push_neg at hil
    obtain ⟨a, ha⟩ := d.get_some hI hil
    obtain ⟨b, hb⟩ := d.get_some hI (show d.len - 1 < d.len by omega)
    have he : d.swap_remove_back i = pop_back ((d.set_at i b).set_at (d.len - 1) a) := by
      unfold swap_remove_back
      rw [if_neg (by omega), ha, hb]
    have h1 : (d.set_at i b).Inv := d.set_at_inv b hI hil
    have h2 : ((d.set_at i b).set_at (d.len - 1) a).Inv :=
      (d.set_at i b).set_at_inv a h1 (show d.len - 1 < d.len by omega)
    obtain ⟨c1, c2, c3, c4, c5⟩ :=
      ((d.set_at i b).set_at (d.len - 1) a).pop_back_spec h2 (show 0 < d.len by omega)
    rw [he]
    exact ⟨c1, by rw [c2]; rfl⟩

theorem swap_remove_front_spec (d : ArrayDeque α) (i : Nat) (hI : d.Inv) :
    (d.swap_remove_front i).2.Inv ∧ (d.swap_remove_front i).2.n = d.n := by
  by_cases hil : d.len ≤ i
  · have he : d.swap_remove_front i = (none, d) := by
      unfold swap_remove_front
      rw [if_pos hil]
    rw [he]
    exact ⟨hI, rfl⟩
  · push_neg at hil
    obtain ⟨a, ha⟩ := d.get_some hI hil
    obtain ⟨b, hb⟩ := d.get_some hI (show 0 < d.len by omega)
    have he : d.swap_remove_front i = pop_front ((d.set_at i b).set_at 0 a) := by
      unfold swap_remove_front
      rw [if_neg (by omega), ha, hb]
    have h1 : (d.set_at i b).Inv := d.set_at_inv b hI hil
    have h2 : ((d.set_at i b).set_at 0 a).Inv :=
      (d.set_at i b).set_at_inv a h1 (show 0 < d.len by omega)
    obtain ⟨c1, c2, c3, c4, c5⟩ :=
      ((d.set_at i b).set_at 0 a).pop_front_spec h2 (show 0 < d.len by omega)
    rw [he]
    exact ⟨c1, by rw [c2]; rfl⟩

theorem insert_spec (d : ArrayDeque α) (i : Nat) (x : α) (hI : d.Inv)
    (hne : d.len ≠ d.capacity) (hi : i ≤ d.len) :
    ∃ d₁, d.insert i x = .ok d₁ ∧ d₁.Inv ∧ d₁.n = d.n ∧ d₁.len = d.len + 1 ∧
      d₁.toList = d.toList.take i ++ x :: d.toList.drop i := by
  have hlc := d.len_le_capacity hI.1
  have hL := d.toList_length hI
  have hfull : ¬ (d.is_full = true) := by
    simp [is_full]
    exact hne
  by_cases hhalf : 2 * i < d.len
  · obtain ⟨c1, c2, c3, c4, c5, c6⟩ := pop_front_n_spec i d hI (by omega)
    have hne2 : (d.pop_front_n i).2.len ≠ (d.pop_front_n i).2.capacity := by
      rw [c5, capacity_congr c3]
      omega
    obtain ⟨p1, p2, p3, p4, p5⟩ := (d.pop_front_n i).2.push_front_t_spec x c2 hne2
    have hcap3 : ((d.pop_front_n i).2.push_front_t x).len + (d.pop_front_n i).1.length
        ≤ ((d.pop_front_n i).2.push_front_t x).capacity := by
      rw [p4, c5, capacity_congr (p2.trans c3), c1, List.length_take, hL]
      omega
    obtain ⟨q1, q2, q3, q4, q5⟩ := push_front_all_spec (d.pop_front_n i).1
      ((d.pop_front_n i).2.push_front_t x) p1 hcap3
    refine ⟨_, ?_, q1, ?_, ?_, ?_⟩
    · show d.insert i x
        = .ok (push_front_all ((d.pop_front_n i).2.push_front_t x) (d.pop_front_n i).1)
      unfold insert
      rw [if_neg hfull, if_pos hhalf]
    · rw [q2, p2, c3]
    · rw [q4, p4, c5, c1, List.length_take, hL]
      omega
    · rw [q5, p5, c6, c1]
  · obtain ⟨c1, c2, c3, c4, c5, c6⟩ := pop_back_n_spec (d.len - i) d hI (by omega)
    have hii : d.len - (d.len - i) = i := by omega
    rw [hii] at c1 c5 c6
    have hne2 : (d.pop_back_n (d.len - i)).2.len ≠ (d.pop_back_n (d.len - i)).2.capacity := by
      rw [c5, capacity_congr c3]
      omega
    obtain ⟨p1, p2, p3, p4, p5⟩ := (d.pop_back_n (d.len - i)).2.push_back_t_spec x c2 hne2
    have hcap3 : ((d.pop_back_n (d.len - i)).2.push_back_t x).len
          + (d.pop_back_n (d.len - i)).1.reverse.length
        ≤ ((d.pop_back_n (d.len - i)).2.push_back_t x).capacity := by
      rw [p4, c5, capacity_congr (p2.trans c3), c1, List.reverse_reverse,
        List.length_drop, hL]
      omega
    obtain ⟨q1, q2, q3, q4, q5⟩ := push_back_all_spec (d.pop_back_n (d.len - i)).1.reverse
      ((d.pop_back_n (d.len - i)).2.push_back_t x) p1 hcap3
    refine ⟨_, ?_, q1, ?_, ?_, ?_⟩
    · show d.insert i x
        = .ok (push_back_all ((d.pop_back_n (d.len - i)).2.push_back_t x)
            (d.pop_back_n (d.len - i)).1.reverse)
      unfold insert
      rw [if_neg hfull, if_neg hhalf]
    · rw [q2, p2, c3]
    · rw [q4, p4, c5, c1, List.reverse_reverse, List.length_drop, hL]
      omega
    · rw [q5, p5, c6, c1, List.reverse_reverse, List.append_assoc]
      rfl

theorem remove_spec (d : ArrayDeque α) (i : Nat) (hI : d.Inv) (hi : i < d.len) :
    (d.remove i).1 = d.toList[i]? ∧ (d.remove i).2.Inv ∧ (d.remove i).2.n = d.n ∧
      (d.remove i).2.len = d.len - 1 ∧
      (d.remove i).2.toList = d.toList.take i ++ d.toList.drop (i + 1) := by
  have hlc := d.len_le_capacity hI.1
  have hL := d.toList_length hI
  obtain ⟨y, hy⟩ : ∃ y, d.toList[i]? = some y := by
    rw [List.getElem?_eq_getElem (by rw [hL]; omega)]
    exact ⟨_, rfl⟩
  by_cases hhalf : 2 * i < d.len
  · obtain ⟨c1, c2, c3, c4, c5, c6⟩ := pop_front_n_spec (i + 1) d hI (by omega)
    have he : d.remove i = ((d.pop_front_n (i + 1)).1.getLast?,
        push_front_all (d.pop_front_n (i + 1)).2 ((d.pop_front_n (i + 1)).1.take i)) := by
      unfold remove
      rw [if_neg (by omega), if_pos hhalf]
    have hlast : (d.pop_front_n (i + 1)).1.getLast? = some y := by
      rw [c1, List.take_succ, hy]
      exact List.getLast?_concat _
    have htake : (d.pop_front_n (i + 1)).1.take i = d.toList.take i := by
      rw [c1, List.take_take]
      congr 1
      omega
    have hcap2 : (d.pop_front_n (i + 1)).2.len + ((d.pop_front_n (i + 1)).1.take i).length
        ≤ (d.pop_front_n (i + 1)).2.capacity := by
      rw [c5, capacity_congr c3, htake, List.length_take, hL]
      omega
    obtain ⟨q1, q2, q3, q4, q5⟩ := push_front_all_spec ((d.pop_front_n (i + 1)).1.take i)
      (d.pop_front_n (i + 1)).2 c2 hcap2
    refine ⟨?_, ?_, ?_, ?_, ?_⟩
    · rw [he]
      show (d.pop_front_n (i + 1)).1.getLast? = d.toList[i]?
      rw [hlast, hy]
    · rw [he]
      exact q1
    · rw [he]
      show (push_front_all (d.pop_front_n (i + 1)).2 ((d.pop_front_n (i + 1)).1.take i)).n
        = d.n
      rw [q2, c3]
    · rw [he]
      show (push_front_all (d.pop_front_n (i + 1)).2 ((d.pop_front_n (i + 1)).1.take i)).len
        = d.len - 1
      rw [q4, c5, htake, List.length_take, hL]
      omega
    · rw [he]
      show (push_front_all (d.pop_front_n (i + 1)).2
          ((d.pop_front_n (i + 1)).1.take i)).toList
        = d.toList.take i ++ d.toList.drop (i + 1)
      rw [q5, c6, htake]
  · obtain ⟨c1, c2, c3, c4, c5, c6⟩ := pop_back_n_spec (d.len - i) d hI (by omega)
    have hii : d.len - (d.len - i) = i := by omega
    rw [hii] at c1 c5 c6
    have he : d.remove i = ((d.pop_back_n (d.len - i)).1.getLast?,
        push_back_all (d.pop_back_n (d.len - i)).2
          ((d.pop_back_n (d.len - i)).1.reverse.drop 1)) := by
      unfold remove
      rw [if_neg (by omega), if_neg hhalf]
    have hlast : (d.pop_back_n (d.len - i)).1.getLast? = some y := by
      rw [c1, List.getLast?_reverse, List.head?_drop, hy]
    have hdrop : (d.pop_back_n (d.len - i)).1.reverse.drop 1 = d.toList.drop (i + 1) := by
      rw [c1, List.reverse_reverse, List.drop_drop]
    have hcap2 : (d.pop_back_n (d.len - i)).2.len
          + ((d.pop_back_n (d.len - i)).1.reverse.drop 1).length
        ≤ (d.pop_back_n (d.len - i)).2.capacity := by
      rw [c5, capacity_congr c3, hdrop, List.length_drop, hL]
      omega
    obtain ⟨q1, q2, q3, q4, q5⟩ := push_back_all_spec
      ((d.pop_back_n (d.len - i)).1.reverse.drop 1) (d.pop_back_n (d.len - i)).2 c2 hcap2
    refine ⟨?_, ?_, ?_, ?_, ?_⟩
    · rw [he]
      show (d.pop_back_n (d.len - i)).1.getLast? = d.toList[i]?
      rw [hlast, hy]
    · rw [he]
      exact q1
    · rw [he]
      show (push_back_all (d.pop_back_n (d.len - i)).2
          ((d.pop_back_n (d.len - i)).1.reverse.drop 1)).n = d.n
      rw [q2, c3]
    · rw [he]
      show (push_back_all (d.pop_back_n (d.len - i)).2
          ((d.pop_back_n (d.len - i)).1.reverse.drop 1)).len = d.len - 1
      rw [q4, c5, hdrop, List.length_drop, hL]
      omega
    · rw [he]
      show (push_back_all (d.pop_back_n (d.len - i)).2
          ((d.pop_back_n (d.len - i)).1.reverse.drop 1)).toList
        = d.toList.take i ++ d.toList.drop (i + 1)
      rw [q5, c6, hdrop]

/-! Section: The backing length `n` is preserved unconditionally by every operation -/

theorem n_push_back_t (d : ArrayDeque α) (x : α) : (d.push_back_t x).n = d.n := by
  unfold push_back_t push_back
  by_cases h : d.is_full = true
  · rw [if_pos h]
  · rw [if_neg h]

theorem n_push_front_t (d : ArrayDeque α) (x : α) : (d.push_front_t x).n = d.n := by
  unfold push_front_t push_front
  by_cases h : d.is_full = true
  · rw [if_pos h]
  · rw [if_neg h]

theorem n_pop_front (d : ArrayDeque α) : d.pop_front.2.n = d.n := by
  unfold pop_front
  split
  · rfl
  · rfl

theorem n_pop_back (d : ArrayDeque α) : d.pop_back.2.n = d.n := by
  unfold pop_back
  split
  · rfl
  · rfl

theorem n_pop_front_n (k : Nat) : ∀ d : ArrayDeque α, (d.pop_front_n k).2.n = d.n := by
  induction k with
  | zero => intro d; rfl
  | succ k ih =>
    intro d
    show (d.pop_front.2.pop_front_n k).2.n = d.n
    rw [ih, n_pop_front]

theorem n_pop_back_n (k : Nat) : ∀ d : ArrayDeque α, (d.pop_back_n k).2.n = d.n := by
  induction k with
  | zero => intro d; rfl
  | succ k ih =>
    intro d
    show (d.pop_back.2.pop_back_n k).2.n = d.n
    rw [ih, n_pop_back]

theorem n_push_back_all (l : List α) : ∀ d : ArrayDeque α, (d.push_back_all l).n = d.n := by
  induction l with
  | nil => intro d; rfl
  | cons a l ih =>
    intro d
    show ((d.push_back_t a).push_back_all l).n = d.n
    rw [ih, n_push_back_t]

theorem n_push_front_all (l : List α) : ∀ d : ArrayDeque α, (d.push_front_all l).n = d.n := by
  induction l with
  | nil => intro d; rfl
  | cons a l ih =>
    intro d
    show ((d.push_front_all l).push_front_t a).n = d.n
    rw [n_push_front_t, ih]

theorem n_extend (l : List α) : ∀ d : ArrayDeque α, (d.extend l).n = d.n := by
  induction l with
  | nil => intro d; rfl
  | cons a l ih =>
    intro d
    show ((d.push_back_t a).extend l).n = d.n
    rw [ih, n_push_back_t]

theorem n_move_all (k : Nat) : ∀ dst src : ArrayDeque α,
    (move_all dst src k).1.n = dst.n ∧ (move_all dst src k).2.n = src.n := by
  induction k with
  | zero => intro dst src; exact ⟨rfl, rfl⟩
  | succ k ih =>
    intro dst src
    have he : move_all dst src (k + 1)
        = move_all
          (match src.pop_front.1 with
            | some b => push_back_t dst b
            | none => dst) src.pop_front.2 k := rfl
    rw [he]
    cases h : src.pop_front.1 with
    | none =>
      obtain ⟨i1, i2⟩ := ih dst src.pop_front.2
      exact ⟨i1, by rw [i2, n_pop_front]⟩
    | some a =>
      obtain ⟨i1, i2⟩ := ih (dst.push_back_t a) src.pop_front.2
      exact ⟨by rw [i1, n_push_back_t], by rw [i2, n_pop_front]⟩

theorem n_insert (d : ArrayDeque α) (i : Nat) (x : α) :
    ∀ e, d.insert i x = .ok e → e.n = d.n := by
  intro e h
  unfold insert at h
  by_cases hf : d.is_full = true
  · rw [if_pos hf] at h
    simp at h
  · rw [if_neg hf] at h
    by_cases hh2 : 2 * i < d.len
    · rw [if_pos hh2] at h
      injection h with h2
      rw [← h2, n_push_front_all, n_push_front_t, n_pop_front_n]
    · rw [if_neg hh2] at h
      injection h with h2
      rw [← h2, n_push_back_all, n_push_back_t, n_pop_back_n]

theorem n_remove (d : ArrayDeque α) (i : Nat) : (d.remove i).2.n = d.n := by
  unfold remove
  by_cases hil : d.len ≤ i
  · rw [if_pos hil]
  · rw [if_neg hil]
    by_cases hh2 : 2 * i < d.len
    · rw [if_pos hh2]
      show (push_front_all (d.pop_front_n (i + 1)).2 ((d.pop_front_n (i + 1)).1.take i)).n
        = d.n
      rw [n_push_front_all, n_pop_front_n]
    · rw [if_neg hh2]
      show (push_back_all (d.pop_back_n (d.len - i)).2
          ((d.pop_back_n (d.len - i)).1.reverse.drop 1)).n = d.n
      rw [n_push_back_all, n_pop_back_n]

theorem n_swap_remove_back (d : ArrayDeque α) (i : Nat) :
    (d.swap_remove_back i).2.n = d.n := by
  unfold swap_remove_back
  by_cases hil : d.len ≤ i
  · rw [if_pos hil]
  · rw [if_neg hil]
    cases d.get i with
    | none => rfl
    | some a =>
      cases d.get (d.len - 1) with
      | none => rfl
      | some b =>
        rw [n_pop_back]
        rfl

theorem n_swap_remove_front (d : ArrayDeque α) (i : Nat) :
    (d.swap_remove_front i).2.n = d.n := by
  unfold swap_remove_front
  by_cases hil : d.len ≤ i
  · rw [if_pos hil]
  · rw [if_neg hil]
    cases d.get i with
    | none => rfl
    | some a =>
      cases d.get 0 with
      | none => rfl
      | some b =>
        rw [n_pop_front]
        rfl

theorem n_append (d other : ArrayDeque α) :
    (d.append other).1.n = d.n ∧ (d.append other).2.n = other.n := by
  unfold append
  by_cases h : d.capacity - d.len < other.len
  · rw [if_pos h]
    exact ⟨rfl, rfl⟩
  · rw [if_neg h]
    exact n_move_all other.len d other

/-! Section: Claim theorems -/

/-- C1: for every deque whose backing array has length `N`, `capacity()`
returns exactly `N - 1` (`capacity = d.n - 1`, and `new` over `k` slots has
capacity `k - 1`), and this value is constant for the lifetime of the
instance: every public operation — `push_back`, `push_front`, `pop_back`,
`pop_front`, `insert`, `remove`, `swap_remove_back`, `swap_remove_front`,
`append`, `extend` — leaves the backing length, and hence `capacity`,
unchanged (`get` does not return a deque and cannot change it). -/
theorem C1_capacity_constant (d other : ArrayDeque α) (x : α) (i k : Nat) (l : List α) :
    d.capacity = d.n - 1 ∧
    (new α k).capacity = k - 1 ∧
    (∀ e, d.push_back x = .ok e → e.capacity = d.capacity) ∧
    (∀ e, d.push_front x = .ok e → e.capacity = d.capacity) ∧
    d.pop_back.2.capacity = d.capacity ∧
    d.pop_front.2.capacity = d.capacity ∧
    (∀ e, d.insert i x = .ok e → e.capacity = d.capacity) ∧
    (d.remove i).2.capacity = d.capacity ∧
    (d.swap_remove_back i).2.capacity = d.capacity ∧
    (d.swap_remove_front i).2.capacity = d.capacity ∧
    (d.append other).1.capacity = d.capacity ∧
    (d.append other).2.capacity = other.capacity ∧
    (d.extend l).capacity = d.capacity := by
  refine ⟨rfl, rfl, ?_, ?_, capacity_congr (n_pop_back d), capacity_congr (n_pop_front d),
    ?_, capacity_congr (n_remove d i), capacity_congr (n_swap_remove_back d i),
    capacity_congr (n_swap_remove_front d i), capacity_congr (n_append d other).1,
    capacity_congr (n_append d other).2, capacity_congr (n_extend l d)⟩
  · intro e h
    have he : e = d.push_back_t x := by
      unfold push_back_t
      rw [h]
    rw [he]
    exact capacity_congr (n_push_back_t d x)
  · intro e h
    have he : e = d.push_front_t x := by
      unfold push_front_t
      rw [h]
    rw [he]
    exact capacity_congr (n_push_front_t d x)
  · intro e h
    exact capacity_congr (n_insert d i x e h)

theorem C1_capacity_constant_witness :
    (new Nat 8).capacity = (new Nat 8).n - 1 ∧ (new Nat 8).capacity = 7 ∧
      ((new Nat 8).extend [1, 2, 3]).capacity = (new Nat 8).capacity :=
  ⟨(C1_capacity_constant (new Nat 8) (new Nat 8) 0 0 8 []).1, by decide,
    (C1_capacity_constant (new Nat 8) (new Nat 8) 0 0 8 [1, 2, 3]).2.2.2.2.2.2.2.2.2.2.2.2⟩

/-- C2: for every interleaving of `push_back`/`push_front` calls whose total
count does not exceed `capacity()` on a fresh buffer of `k` slots (so no push
is ever attempted on a full deque), `len()` afterwards equals the number of
(all successful) pushes, the logical sequence is the one obtained by
appending each `push_back` argument and prepending each `push_front`
argument, successive `pop_front` calls return it in FIFO order and
successive `pop_back` calls return it in reverse (LIFO) order; in
particular, on a deque backed by 8 slots, `push_back 1`, `push_back 2`,
then three `pop_front` calls yield `some 1`, `some 2`, `none`. -/
theorem C2_push_pop_fifo_lifo (ops : List (PushOp α)) (k : Nat) (hk : 0 < k)
    (hops : ops.length ≤ k - 1) :
    ((new α k).run_pushes ops).len = ops.length ∧
    ((new α k).run_pushes ops).toList = run_push_model [] ops ∧
    (((new α k).run_pushes ops).pop_front_n ops.length).1 = run_push_model [] ops ∧
    (((new α k).run_pushes ops).pop_back_n ops.length).1
      = (run_push_model [] ops).reverse ∧
    (push_back_t (push_back_t (new Nat 8) 1) 2).pop_front.1 = some 1 ∧
    (push_back_t (push_back_t (new Nat 8) 1) 2).pop_front.2.pop_front.1 = some 2 ∧
    (push_back_t (push_back_t (new Nat 8) 1) 2).pop_front.2.pop_front.2.pop_front.1
      = none := by
  obtain ⟨w1, w2, w3, w4, w5, w6⟩ := new_spec (α := α) k hk
  have hcap : (new α k).len + ops.length ≤ (new α k).capacity := by
    rw [w2]
    show 0 + ops.length ≤ k - 1
    omega
  obtain ⟨r1, r2, r3, r4⟩ := run_pushes_spec ops (new α k) w1 hcap
  have hlen : ((new α k).run_pushes ops).len = ops.length := by
    rw [r3, w2]
    omega
  have htl : ((new α k).run_pushes ops).toList = run_push_model [] ops := by
    rw [r4, w3]
  refine ⟨hlen, htl, ?_, ?_, by decide, by decide, by decide⟩
  · obtain ⟨c1, _⟩ := pop_front_n_spec ops.length ((new α k).run_pushes ops) r1 (by omega)
    rw [c1, List.take_of_length_le (by rw [toList_length _ r1, hlen])]
    exact htl
  · obtain ⟨c1, _⟩ := pop_back_n_spec ops.length ((new α k).run_pushes ops) r1 (by omega)
    rw [c1, hlen, Nat.sub_self, List.drop_zero, htl]

theorem C2_push_pop_fifo_lifo_witness :
    ((new Nat 8).run_pushes [PushOp.back 1, PushOp.back 2]).toList
        = run_push_model [] [PushOp.back 1, PushOp.back 2] ∧
      (push_back_t (push_back_t (new Nat 8) 1) 2).pop_front.1 = some 1 :=
  ⟨(C2_push_pop_fifo_lifo [PushOp.back 1, PushOp.back 2] 8 (by decide) (by decide)).2.1,
    (C2_push_pop_fifo_lifo ([] : List (PushOp Nat)) 8 (by decide)
      (by decide)).2.2.2.2.1⟩

/-- C3: on every buffer satisfying the invariant `Inv` — which states
`head < N`, `tail < N`, the storage has the `N` slots, and a slot is live
iff its modular offset from `head` is below `len` (the modular range
`[head, tail)`) — we have `len = (tail - head) mod N` (definitionally) and
`len ≤ capacity = N - 1`, and every public operation preserves `Inv`:
`new` establishes it, `push_back`/`push_front`/`insert` preserve it on
success (on failure the buffer is returned unchanged), and
`pop_back`/`pop_front`/`remove`/`swap_remove_back`/`swap_remove_front`/
`append`/`extend` preserve it unconditionally (`get` does not mutate the
buffer). -/
theorem C3_invariants_preserved (d other : ArrayDeque α) (x : α) (i k : Nat)
    (l : List α) (hI : d.Inv) (ho : other.Inv) :
    d.head < d.n ∧ d.tail < d.n ∧ d.len = (d.tail + d.n - d.head) % d.n ∧
    d.len ≤ d.capacity ∧ d.capacity = d.n - 1 ∧
    (0 < k → (new α k).Inv) ∧
    (∀ e, d.push_back x = .ok e → e.Inv) ∧
    (∀ e, d.push_front x = .ok e → e.Inv) ∧
    d.pop_back.2.Inv ∧ d.pop_front.2.Inv ∧
    (∀ e, d.insert i x = .ok e → e.Inv) ∧
    (d.remove i).2.Inv ∧
    (d.swap_remove_back i).2.Inv ∧ (d.swap_remove_front i).2.Inv ∧
    (d.append other).1.Inv ∧ (d.append other).2.Inv ∧
    (d.extend l).Inv := by
  obtain ⟨hn, hh, ht, hx, hlive⟩ := hI
  have hI' : d.Inv := ⟨hn, hh, ht, hx, hlive⟩
  have hlc := d.len_le_capacity hn
  refine ⟨hh, ht, rfl, hlc, rfl, fun hk => (new_spec k hk).1, ?_, ?_, ?_, ?_, ?_, ?_,
    (d.swap_remove_back_spec i hI').1, (d.swap_remove_front_spec i hI').1, ?_, ?_,
    (extend_spec l d hI').1⟩
  · intro e h
    by_cases hf : d.len = d.capacity
    · rw [push_back_err d x hf] at h
      simp at h
    · rw [push_back_eq_ok d x hf] at h
      injection h with h2
      rw [← h2]
      exact (d.push_back_t_spec x hI' hf).1
  · intro e h
    by_cases hf : d.len = d.capacity
    · rw [push_front_err d x hf] at h
      simp at h
    · rw [push_front_eq_ok d x hf] at h
      injection h with h2
      rw [← h2]
      exact (d.push_front_t_spec x hI' hf).1
  · by_cases hz : d.len = 0
    · rw [d.pop_back_empty hz]
      exact hI'
    · exact (d.pop_back_spec hI' (by omega)).1
  · by_cases hz : d.len = 0
    · rw [d.pop_front_empty hz]
      exact hI'
    · exact (d.pop_front_spec hI' (by omega)).1
  · intro e h
    by_cases hf : d.len = d.capacity
    · have hfull : d.is_full = true := by
        simp [is_full]
        exact hf
      unfold insert at h
      rw [if_pos hfull] at h
      simp at h
    · by_cases hil : i ≤ d.len
      · obtain ⟨d₁, he, hInv, _⟩ := d.insert_spec i x hI' hf hil
        rw [he] at h
        injection h with h2
        rw [← h2]
        exact hInv
      · have h0 : d.len - i = 0 := by omega
        have hh2 : ¬ (2 * i < d.len) := by omega
        have hfull : ¬ (d.is_full = true) := by
          simp [is_full]
          exact hf
        unfold insert at h
        rw [if_neg hfull, if_neg hh2, h0] at h
        injection h with h2
        rw [← h2]
        show ((d.pop_back_n 0).2.push_back_t x).Inv
        exact (d.push_back_t_spec x hI' hf).1
  · by_cases hil : d.len ≤ i
    · have he : d.remove i = (none, d) := by
        unfold remove
        rw [if_pos hil]
      rw [he]
      exact hI'
    · exact (d.remove_spec i hI' (by omega)).2.1
  · by_cases hc : d.capacity - d.len < other.len
    · rw [d.append_fail_spec other hc]
      exact hI'
    · exact (d.append_ok_spec other hI' ho (by omega)).1
  · by_cases hc : d.capacity - d.len < other.len
    · rw [d.append_fail_spec other hc]
      exact ho
    · exact (d.append_ok_spec other hI' ho (by omega)).2.2.2.2.1

theorem C3_invariants_preserved_witness :
    (push_back_t (new Nat 8) 5).Inv ∧ (new Nat 8).Inv ∧
      ((push_back_t (new Nat 8) 5).extend [1, 2, 3]).Inv :=
  ⟨by decide, by decide,
    (C3_invariants_preserved (push_back_t (new Nat 8) 5) (new Nat 8) 0 0 8 [1, 2, 3]
      (by decide) (by decide)).2.2.2.2.2.2.2.2.2.2.2.2.2.2.2.2⟩

/-- C4: `push_back x` fails if and only if the deque is full
(`len() = capacity()`), and when it fails it fails precisely with
`CapacityError x`, handing the rejected element back unchanged — the error
branch returns no modified buffer, so the deque's state is untouched (the
functional embedding makes "state unmodified on failure" literal: the
caller still holds `d`). Otherwise it succeeds, writing `x` into slot
`tail`, advancing `tail` to `(tail + 1) mod N`, keeping `head` and `N`, and
increasing `len()` by exactly one (appending `x` to the logical
sequence). -/
theorem C4_push_back_error_iff_full (d : ArrayDeque α) (x : α) (hI : d.Inv) :
    (d.push_back x = .error ⟨x⟩ ↔ d.len = d.capacity) ∧
    (d.len ≠ d.capacity → ∃ d₁, d.push_back x = .ok d₁ ∧
      d₁.slot d.tail = some x ∧ d₁.tail = (d.tail + 1) % d.n ∧ d₁.head = d.head ∧
      d₁.n = d.n ∧ d₁.len = d.len + 1 ∧ d₁.toList = d.toList ++ [x]) := by
  constructor
  · constructor
    · intro h
      by_contra hf
      rw [push_back_eq_ok d x hf] at h
      simp at h
    · intro hf
      exact push_back_err d x hf
  · intro hf
    obtain ⟨p1, p2, p3, p4, p5⟩ := d.push_back_t_spec x hI hf
    have he : d.push_back_t x =
        { d with xs := d.xs.set d.tail (some x), tail := (d.tail + 1) % d.n } := by
      simp [push_back_t, push_back, is_full, hf]
    have hs : (d.push_back_t x).slot d.tail = some x := by
      rw [he]
      show (d.xs.set d.tail (some x)).getD d.tail none = some x
      exact getD_set_self _ _ _ _ (by rw [hI.2.2.2.1]; exact hI.2.2.1)
    have htail : (d.push_back_t x).tail = (d.tail + 1) % d.n := by
      rw [he]
    exact ⟨d.push_back_t x, push_back_eq_ok d x hf, hs, htail, p3, p2, p4, p5⟩

theorem C4_push_back_error_iff_full_witness :
    (push_back_t (new Nat 2) 5).Inv ∧
      ((push_back_t (new Nat 2) 5).push_back 6
          = .error ⟨6⟩ ↔ (push_back_t (new Nat 2) 5).len = (push_back_t (new Nat 2) 5).capacity) ∧
      (push_back_t (new Nat 2) 5).push_back 6 = .error ⟨6⟩ :=
  ⟨by decide, (C4_push_back_error_iff_full (push_back_t (new Nat 2) 5) 6 (by decide)).1,
    (C4_push_back_error_iff_full (push_back_t (new Nat 2) 5) 6 (by decide)).1.mpr
      (by decide)⟩

theorem insert_remove_list (l : List γ) (i : Nat) (x : γ) (hi : i ≤ l.length) :
    (l.take i ++ x :: l.drop i).take i ++ (l.take i ++ x :: l.drop i).drop (i + 1) = l ∧
    (l.take i ++ x :: l.drop i)[i]? = some x := by
  have hlt : (l.take i).length = i := by
    rw [List.length_take]
    omega
  constructor
  · rw [List.take_append_of_le_length (by omega), List.take_take, Nat.min_self]
    rw [List.drop_append_eq_append_drop, hlt]
    rw [List.drop_eq_nil_of_le (by omega), show i + 1 - i = 1 from by omega]
    simp [List.take_append_drop i l]
  · rw [List.getElem?_append_right hlt.le, hlt, Nat.sub_self]
    simp

/-- C5: insert/remove inverse law — for every deque that is not full
(`len ≠ capacity`) and every index `i ≤ len`, `insert i x` succeeds and
then `remove i` returns `some x` and leaves a deque whose logical sequence
equals the original one (`deq_eq`, the crate's equality on the logical
view); in particular, after `push_back 11`, `push_back 13`, `insert 1 12`
the sequence is `[11, 12, 13]`, and `remove 0` then leaves `[12, 13]`. -/
theorem C5_insert_remove_inverse (d : ArrayDeque α) (i : Nat) (x : α) (hI : d.Inv)
    (hfull : d.len ≠ d.capacity) (hi : i ≤ d.len) :
    (∃ d₁, d.insert i x = .ok d₁ ∧ (d₁.remove i).1 = some x ∧
      deq_eq (d₁.remove i).2 d) ∧
    ((push_back_t (push_back_t (new Nat 8) 11) 13).insert 1 12).toOption.map toList
      = some [11, 12, 13] ∧
    ((push_back_t (push_back_t (new Nat 8) 11) 13).insert 1 12).toOption.map
        (fun e => (e.remove 0).2.toList) = some [12, 13] := by
  obtain ⟨d₁, he, h1, h2, h3, h4⟩ := d.insert_spec i x hI hfull hi
  have hL := d.toList_length hI
  have hi1 : i < d₁.len := by omega
  obtain ⟨r1, r2, r3, r4, r5⟩ := d₁.remove_spec i h1 hi1
  obtain ⟨g1, g2⟩ := insert_remove_list d.toList i x (by omega)
  refine ⟨⟨d₁, he, ?_, ?_⟩, by decide, by decide⟩
  · rw [r1, h4]
    exact g2
  · show (d₁.remove i).2.toList = d.toList
    rw [r5, h4]
    exact g1

theorem C5_insert_remove_inverse_witness :
    (push_back_t (push_back_t (new Nat 8) 11) 13).Inv ∧
      (∃ d₁, (push_back_t (push_back_t (new Nat 8) 11) 13).insert 1 12 = .ok d₁ ∧
        (d₁.remove 1).1 = some 12 ∧
        deq_eq (d₁.remove 1).2 (push_back_t (push_back_t (new Nat 8) 11) 13)) :=
  ⟨by decide,
    (C5_insert_remove_inverse (push_back_t (push_back_t (new Nat 8) 11) 13) 1 12
      (by decide) (by decide) (by decide)).1⟩

/-- C6: `append(self, other)` succeeds iff `self.len() + other.len() ≤
self.capacity()`: on success the first component (the updated `self`)
carries the concatenation of the two original logical sequences and holds
`len + other.len` elements while `other` is drained to the empty sequence;
when the lengths exceed the capacity the call returns the pair `(self,
other)` literally unchanged — all-or-nothing, no partial transfer. -/
theorem C6_append_all_or_nothing (d other : ArrayDeque α) (hd : d.Inv) (ho : other.Inv) :
    (d.len + other.len ≤ d.capacity →
      (d.append other).1.toList = d.toList ++ other.toList ∧
      (d.append other).1.len = d.len + other.len ∧
      (d.append other).2.len = 0 ∧ (d.append other).2.toList = []) ∧
    (d.capacity < d.len + other.len → d.append other = (d, other)) := by
  constructor
  · intro h
    obtain ⟨c1, c2, c3, c4, c5, c6, c7⟩ := d.append_ok_spec other hd ho h
    refine ⟨c4, c3, c7, ?_⟩
    have hlen := toList_length _ c5
    rw [c7] at hlen
    exact List.length_eq_zero.mp hlen
  · intro h
    apply append_fail_spec
    have := d.len_le_capacity hd.1
    omega

theorem C6_append_all_or_nothing_witness :
    ((new Nat 8).extend [0, 1, 2, 3, 4]).Inv ∧
      (((new Nat 8).extend [0, 1, 2, 3, 4]).append ((new Nat 8).extend [5, 6])).1.toList
        = ((new Nat 8).extend [0, 1, 2, 3, 4]).toList ++ ((new Nat 8).extend [5, 6]).toList ∧
      (((new Nat 8).extend [0, 1, 2, 3, 4]).append ((new Nat 8).extend [5, 6])).1.toList
        = [0, 1, 2, 3, 4, 5, 6] ∧
      (((new Nat 8).extend [0, 1, 2, 3, 4]).append ((new Nat 8).extend [5, 6])).2.len = 0 :=
  ⟨by decide,
    ((C6_append_all_or_nothing ((new Nat 8).extend [0, 1, 2, 3, 4])
      ((new Nat 8).extend [5, 6]) (by decide) (by decide)).1 (by decide)).1,
    by decide,
    ((C6_append_all_or_nothing ((new Nat 8).extend [0, 1, 2, 3, 4])
      ((new Nat 8).extend [5, 6]) (by decide) (by decide)).1 (by decide)).2.2.1⟩

/-- C7: `extend` is a total function (it returns a deque, never an error
value), pushing the input elements at the back one at a time; its result
always holds the original sequence followed by exactly the prefix of the
input that fits (`take (capacity - len)` — the remaining elements are
silently dropped), and whenever the input is at least as long as the
remaining capacity the final length is exactly `capacity()`. -/
theorem C7_extend_truncates (d : ArrayDeque α) (l : List α) (hI : d.Inv)
    (h : d.capacity - d.len ≤ l.length) :
    (d.extend l).len = d.capacity ∧
    (d.extend l).toList = d.toList ++ l.take (d.capacity - d.len) := by
  obtain ⟨e1, e2, e3, e4, e5⟩ := extend_spec l d hI
  have hlc := d.len_le_capacity hI.1
  exact ⟨by rw [e4]; omega, e5⟩

theorem C7_extend_truncates_witness :
    (new Nat 4).Inv ∧ ((new Nat 4).extend [1, 2, 3, 4, 5]).len = (new Nat 4).capacity ∧
      ((new Nat 4).extend [1, 2, 3, 4, 5]).toList = [1, 2, 3] :=
  ⟨by decide, (C7_extend_truncates (new Nat 4) [1, 2, 3, 4, 5] (by decide) (by decide)).1,
    by decide⟩

/-- C8: round trip — from any empty buffer satisfying the invariant (which
covers every starting rotation of the cursors reachable via repeated
push/pop pairs, since each such pair leaves the deque empty at an arbitrary
`head = tail` position), pushing `capacity()` elements and then popping all
of them returns the deque to `is_empty() = true` with `head = tail`. -/
theorem C8_round_trip (d : ArrayDeque α) (l : List α) (hI : d.Inv)
    (hemp : d.len = 0) (hlen : l.length = d.capacity) :
    ((d.push_back_all l).pop_front_n d.capacity).2.is_empty = true ∧
    ((d.push_back_all l).pop_front_n d.capacity).2.head
      = ((d.push_back_all l).pop_front_n d.capacity).2.tail := by
  obtain ⟨p1, p2, p3, p4, p5⟩ := push_back_all_spec l d hI (by omega)
  have hlen2 : (d.push_back_all l).len = d.capacity := by
    rw [p4, hemp, hlen]
    omega
  obtain ⟨c1, c2, c3, c4, c5, c6⟩ :=
    pop_front_n_spec d.capacity (d.push_back_all l) p1 (by omega)
  have hz : ((d.push_back_all l).pop_front_n d.capacity).2.len = 0 := by
    rw [c5, hlen2]
    omega
  constructor
  · simp [is_empty, hz]
  · exact head_eq_tail_of_len_zero _ c2.2.1 c2.2.2.1 hz

theorem C8_round_trip_witness :
    ((push_back_t (new Nat 4) 9).pop_front.2.len = 0 ∧
        (push_back_t (new Nat 4) 9).pop_front.2.head = 1) ∧
      (((push_back_t (new Nat 4) 9).pop_front.2.push_back_all [1, 2, 3]).pop_front_n
          (push_back_t (new Nat 4) 9).pop_front.2.capacity).2.is_empty = true :=
  ⟨by decide,
    (C8_round_trip (push_back_t (new Nat 4) 9).pop_front.2 [1, 2, 3] (by decide)
      (by decide) (by decide)).1⟩

/-- C9: memory-safety discipline, rendered in the model where a non-live
(uninitialized or vacated) slot holds `none` and a live slot holds `some`:
(a) `get i` for `i ≥ len` reports absence and never reads a slot; (b) any
physical slot outside the live modular range `[head, tail)` holds no
element (`none`) — uninitialized slots are never read as valid elements;
(c) the logical enumeration `toList` names each live element exactly once
(its length is `len` and distinct logical indices map to distinct physical
slots), which is the model's form of "each element destroyed exactly once"
on drop; and (d) each pop marks the vacated slot non-live immediately, so a
popped element can never be yielded again. -/
theorem C9_memory_safety (d : ArrayDeque α) (i j : Nat) (hI : d.Inv) :
    (d.len ≤ i → d.get i = none) ∧
    (j < d.n → ¬ ((j + d.n - d.head) % d.n < d.len) → d.slot j = none) ∧
    d.toList.length = d.len ∧
    (∀ i₁ i₂, i₁ < d.len → i₂ < d.len →
      (d.head + i₁) % d.n = (d.head + i₂) % d.n → i₁ = i₂) ∧
    (0 < d.len → d.pop_front.2.slot d.head = none) ∧
    (0 < d.len → d.pop_back.2.slot ((d.tail + d.n - 1) % d.n) = none) := by
  obtain ⟨hn, hh, ht, hx, hlive⟩ := hI
  have hI' : d.Inv := ⟨hn, hh, ht, hx, hlive⟩
  have hlt := d.len_lt hn
  refine ⟨?_, ?_, toList_length d hI', ?_, ?_, ?_⟩
  · intro h
    unfold get
    rw [if_pos h]
  · intro hj hnl
    have hiff := hlive j hj
    cases hs : d.slot j with
    | none => rfl
    | some a =>
      exact absurd (hiff.mp (by rw [hs]; rfl)) hnl
  · intro i₁ i₂ h1 h2 hcontra
    exact phys_inj d.n d.head hh (by omega) (by omega) hcontra
  · intro hpos
    have hz : d.len ≠ 0 := by omega
    have he2 : d.pop_front.2
        = { d with xs := d.xs.set d.head none, head := (d.head + 1) % d.n } := by
      simp [pop_front, hz]
    rw [he2]
    show (d.xs.set d.head none).getD d.head none = none
    exact getD_set_self _ _ _ _ (by rw [hx]; exact hh)
  · intro hpos
    have hz : d.len ≠ 0 := by omega
    have he2 : d.pop_back.2
        = { d with xs := d.xs.set ((d.tail + d.n - 1) % d.n) none,
                   tail := (d.tail + d.n - 1) % d.n } := by
      simp [pop_back, hz]
    rw [he2]
    show (d.xs.set ((d.tail + d.n - 1) % d.n) none).getD ((d.tail + d.n - 1) % d.n) none
      = none
    exact getD_set_self _ _ _ _ (by rw [hx]; exact Nat.mod_lt _ hn)

theorem C9_memory_safety_witness :
    ((push_back_t (new Nat 4) 7).pop_front.2.Inv ∧
        (push_back_t (new Nat 4) 7).pop_front.2.get 0 = none) ∧
      (push_back_t (new Nat 4) 7).pop_front.2.slot 0 = none :=
  ⟨⟨by decide,
      (C9_memory_safety (push_back_t (new Nat 4) 7).pop_front.2 0 0 (by decide)).1
        (by decide)⟩,
    by decide⟩

/-- C10: construction from an iterator is deterministic and depends only on
the yielded element sequence (in the embedding an iterator is exactly the
list of elements it yields): collecting equal sequences of at most
`capacity()` elements produces deques that compare equal under the logical
equality `deq_eq`; moreover collecting such a sequence reproduces it
exactly as the logical contents (so e.g. collecting `[0, 1, 2, 3, 4]` and
collecting the range `0..5` yield equal deques). -/
theorem C10_collect_deterministic (k : Nat) (l₁ l₂ : List α) (hk : 0 < k)
    (heq : l₁ = l₂) (hlen : l₁.length ≤ k - 1) :
    deq_eq (collect α k l₁) (collect α k l₂) ∧ (collect α k l₁).toList = l₁ := by
  subst heq
  obtain ⟨w1, w2, w3, w4, w5, w6⟩ := new_spec (α := α) k hk
  obtain ⟨e1, e2, e3, e4, e5⟩ := extend_spec l₁ (new α k) w1
  refine ⟨rfl, ?_⟩
  show ((new α k).extend l₁).toList = l₁
  rw [e5, w3, w2, Nat.sub_zero, List.nil_append]
  exact List.take_of_length_le hlen

theorem C10_collect_deterministic_witness :
    ([0, 1, 2, 3, 4] : List Nat) = List.range 5 ∧
      deq_eq (collect Nat 8 [0, 1, 2, 3, 4]) (collect Nat 8 (List.range 5)) ∧
      (collect Nat 8 [0, 1, 2, 3, 4]).toList = [0, 1, 2, 3, 4] :=
  ⟨by decide,
    (C10_collect_deterministic 8 [0, 1, 2, 3, 4] (List.range 5) (by decide) (by decide)
      (by decide)).1,
    (C10_collect_deterministic 8 [0, 1, 2, 3, 4] (List.range 5) (by decide) (by decide)
      (by decide)).2⟩

end ArrayDeque

end ArraydequeSpec
